import Mathlib

/-!
Verification of the minimax tic-tac-toe engine (`board.js`).

The `Board` class is shallowly embedded: the grid is a `List (List String)`
whose cells are the literal strings `"X"`, `"O"`, `"E"`; JS out-of-range
array reads are modelled by the default value `"undefined"`.  The memoization
cache is an explicit value of type `String → Option Int` threaded through the
score computation, and the recursive scorer is given explicit fuel
(`countE + 1`, the number of empty cells plus one, which always suffices).
-/

namespace MinimaxXO

/-- Board state as in the `Board` constructor: the grid of cell strings, the
computer's symbol, and whose turn it is.  The shared cache is threaded
separately through the operations that use it. -/
structure Board where
  state : List (List String)
  compSymbol : String
  isCompTurn : Bool
deriving DecidableEq

/-- Models `this.boardSize = this.state.length`. -/
def Board.boardSize (b : Board) : Nat := b.state.length

/-- Models `this.humanSymbol = this.compSymbol === "X" ? "O" : "X"`. -/
def Board.humanSymbol (b : Board) : String := if b.compSymbol = "X" then "O" else "X"

/-- Models `getRows()`: the rows are the board state itself. -/
def Board.getRows (b : Board) : List (List String) := b.state

/-- Models `getCols()`: for each column index, the list of that column's
cells; a read past the end of a row yields the JS value `undefined`. -/
def Board.getCols (b : Board) : List (List String) :=
  (List.range b.boardSize).map (fun x => b.state.map (fun row => row.getD x "undefined"))

/-- Models `getDiags()`: the main diagonal `row[i]` and the anti-diagonal
`row[boardSize - i - 1]`. -/
def Board.getDiags (b : Board) : List (List String) :=
  [ b.state.mapIdx (fun i row => row.getD i "undefined"),
    b.state.mapIdx (fun i row => row.getD (b.boardSize - i - 1) "undefined") ]

/-- Models `Board.getLineWinner(line)`: `"E"` if the line has an empty
square, the common value if all squares agree (`line[0]` on the empty line is
the JS `undefined`), and `"D"` otherwise. -/
def getLineWinner (line : List String) : String :=
  if line.contains "E" then "E"
  else if line.all (fun square => square == line.getD 0 "undefined") then line.getD 0 "undefined"
  else "D"

/-- Models the `for (let line of lines)` loop of `getWinner()`, carrying the
`isDraw` flag and returning at the first `"X"`/`"O"` line winner. -/
def winnerLoop : List (List String) → Bool → String
  | [], isDraw => if isDraw then "D" else "L"
  | line :: rest, isDraw =>
    let winner := getLineWinner line
    if winner = "X" ∨ winner = "O" then winner
    else winnerLoop rest (if winner = "E" then false else isDraw)

/-- Models `const lines = [...this.getRows(), ...this.getCols(), ...this.getDiags()]`. -/
def Board.lines (b : Board) : List (List String) :=
  b.getRows ++ b.getCols ++ b.getDiags

/-- Models `getWinner()`: scan rows, then columns, then diagonals. -/
def Board.getWinner (b : Board) : String :=
  winnerLoop b.lines true

/-- Models `const playerSymbol = this.isCompTurn ? this.compSymbol : this.humanSymbol`. -/
def Board.playerSymbol (b : Board) : String :=
  if b.isCompTurn then b.compSymbol else b.humanSymbol

/-- Models the body of the `getChildBoards` loop: clone the board, write the
side-to-move's symbol at `(y, x)` and flip the turn.  (The clone's deep copy
is modelled separately in the heap model below; here the child is simply a
new value.) -/
def Board.placeAt (b : Board) (y x : Nat) : Board :=
  { state := b.state.set y ((b.state.getD y []).set x b.playerSymbol),
    compSymbol := b.compSymbol,
    isCompTurn := !b.isCompTurn }

/-- Models `getChildBoards()`: for each cell in row-major order (outer loop
over rows, inner loop over columns), if it is `"E"`, push the board with the
side-to-move's symbol written there. -/
def Board.getChildBoards (b : Board) : List Board :=
  (List.range b.boardSize).flatMap (fun y =>
    (List.range b.boardSize).filterMap (fun x =>
      if (b.state.getD y []).getD x "undefined" = "E" then some (b.placeAt y x) else none))

/-- Number of `"E"` cells of one row. -/
def eCount (row : List String) : Nat := (row.filter (fun c => c == "E")).length

/-- Number of `"E"` cells of a grid. -/
def countE (g : List (List String)) : Nat := (g.map eCount).sum

/-- Models `Math.max(...args)` on a spread list; the empty case (JS
`-Infinity`) is represented by a junk value and is proved unreachable in the
uses the engine makes of it. -/
def maxList : List Int → Int
  | [] => 0
  | x :: xs => xs.foldl max x

/-- Models `Math.min(...args)`; see `maxList`. -/
def minList : List Int → Int
  | [] => 0
  | x :: xs => xs.foldl min x

/-- One unfolding of `forceGetScore()`, parameterized by the function used to
score the children (in the source that is the memoized `getScore`). -/
def scoreStep (f : Board → Int) (b : Board) : Int :=
  if b.getWinner = b.compSymbol then 100 - (b.getChildBoards.length : Int)
  else if b.getWinner = b.humanSymbol then -100 + (b.getChildBoards.length : Int)
  else if b.getWinner = "D" then 0 + (b.getChildBoards.length : Int)
  else if b.isCompTurn then maxList (b.getChildBoards.map f)
  else minList (b.getChildBoards.map f)

/-- Fuelled cache-free score recursion; `countE + 1` fuel always suffices. -/
def scoreF : Nat → Board → Int
  | 0, _ => 0
  | fuel + 1, b => scoreStep (scoreF fuel) b

/-- The minimax value of a position: the value `getScore()`/`forceGetScore()`
compute (caching only memoizes this value). -/
def score (b : Board) : Int := scoreF (countE b.state + 1) b

/-- Models `forceGetScore()` with the children scored by their (cache-free)
minimax value. -/
def Board.forceGetScore (b : Board) : Int := scoreStep score b

/-- Models the cache key `this.state.join(";")`: JS `Array.join` turns each
row into its cells joined by `","` and joins the rows with `";"`.  Built
from the rows' characters. -/
def encode (g : List (List String)) : String :=
  String.mk (List.intercalate [';']
    (g.map (fun row => List.intercalate [','] (row.map String.data))))

/-- The shared memoization cache, keyed by the canonical string encoding. -/
abbrev Cache := String → Option Int

/-- The fresh cache `{}` an adapter session starts with. -/
def emptyCache : Cache := fun _ => none

/-- Models `this.cache[stringState] = score`. -/
def Cache.insert (c : Cache) (k : String) (v : Int) : Cache :=
  fun k' => if k' = k then some v else c k'

/-- JS truthiness of `this.cache[stringState]`: absent (`undefined`) and the
number `0` are falsy, every other score is truthy. -/
def truthy : Option Int → Bool
  | none => false
  | some v => v != 0

/-- Threads the cache (and a count of `forceGetScore` invocations) through
`this.getChildBoards().map(board => board.getScore())`. -/
def childScoresAux (f : Board → Cache → Int × Cache × Nat) :
    List Board → Cache → List Int × Cache × Nat
  | [], c => ([], c, 0)
  | b :: rest, c =>
    let r := f b c
    let r' := childScoresAux f rest r.2.1
    (r.1 :: r'.1, r'.2.1, r.2.2 + r'.2.2)

/-- One unfolding of `forceGetScore()` with the cache threaded through the
children, parameterized by the scoring function used on the children, and
instrumented with a count of `forceGetScore` invocations (this invocation
included). -/
def forceGetScoreStep (f : Board → Cache → Int × Cache × Nat) (b : Board) (c : Cache) :
    Int × Cache × Nat :=
  if b.getWinner = b.compSymbol then (100 - (b.getChildBoards.length : Int), c, 1)
  else if b.getWinner = b.humanSymbol then (-100 + (b.getChildBoards.length : Int), c, 1)
  else if b.getWinner = "D" then (0 + (b.getChildBoards.length : Int), c, 1)
  else
    let r := childScoresAux f b.getChildBoards c
    ((if b.isCompTurn then maxList r.1 else minList r.1), r.2.1, r.2.2 + 1)

/-- Fuelled, cache-threading `getScore()`: look the encoding up, return a
truthy hit, otherwise compute via `forceGetScore` and store before
returning.  The third component counts `forceGetScore` invocations. -/
def getScoreCF : Nat → Board → Cache → Int × Cache × Nat
  | 0, _, c => (0, c, 0)
  | fuel + 1, b, c =>
    let k := encode b.state
    if truthy (c k) then ((c k).getD 0, c, 0)
    else
      let r := forceGetScoreStep (getScoreCF fuel) b c
      (r.1, Cache.insert r.2.1 k r.1, r.2.2)

/-- Models `getScore()` on a given cache. -/
def Board.getScoreC (b : Board) (c : Cache) : Int × Cache × Nat :=
  getScoreCF (countE b.state + 1) b c

/-- Models `this.getChildBoards().find(board => board.getScore() === this.getScore())`,
evaluating, as JS does, the child's score and then the parent's score on the
current cache at each step. -/
def findBest (b : Board) : List Board → Cache → Option Board × Cache
  | [], c => (none, c)
  | ch :: rest, c =>
    let r := ch.getScoreC c
    let r' := b.getScoreC r.2.1
    if r.1 = r'.1 then (some ch, r'.2.1)
    else findBest b rest r'.2.1

/-- Models `getNextBestBoardState()`: no move unless it is the computer's
turn and the game is still live. -/
def Board.getNextBestBoardState (b : Board) (c : Cache) : Option Board × Cache :=
  if !b.isCompTurn then (none, c)
  else if b.getWinner = "L" then findBest b b.getChildBoards c
  else (none, c)

/-! Well-formedness of positions and the invariants of one adapter session. -/

/-- Each row of the grid has as many cells as there are rows. -/
def SquareGrid (g : List (List String)) : Prop := ∀ row ∈ g, row.length = g.length

/-- Every cell holds one of the three legal symbols. -/
def OkCells (g : List (List String)) : Prop :=
  ∀ row ∈ g, ∀ c ∈ row, c = "X" ∨ c = "O" ∨ c = "E"

/-- The computer's symbol is one of the two marks. -/
def OkSym (s : String) : Prop := s = "X" ∨ s = "O"

/-- A well-formed position: a square grid of legal cells with a legal
computer symbol. -/
def WFB (b : Board) : Prop := SquareGrid b.state ∧ OkCells b.state ∧ OkSym b.compSymbol

/-- Whose turn it is as a function of the number of empty cells, for a
session with turn parity `ft`; it flips whenever a mark is placed. -/
def turnOf (ft : Bool) (e : Nat) : Bool := xor ft (decide (e % 2 = 0))

/-- The positions of one session: well-formed, of the session's fixed size
and computer symbol, with the turn determined by the number of empty cells
(moves strictly alternate).  Closed under `getChildBoards`. -/
def InvB (cs : String) (N : Nat) (ft : Bool) (b : Board) : Prop :=
  WFB b ∧ b.compSymbol = cs ∧ b.state.length = N ∧ b.isCompTurn = turnOf ft (countE b.state)

/-- A cache every stored encoding of which maps to the true minimax score of
the session position so encoded. -/
def CacheOK (cs : String) (N : Nat) (ft : Bool) (c : Cache) : Prop :=
  ∀ b : Board, InvB cs N ft b → ∀ v : Int, c (encode b.state) = some v → v = score b

/-! Basic facts about symbols, grids and child enumeration. -/

theorem humanSymbol_ok (b : Board) : b.humanSymbol = "X" ∨ b.humanSymbol = "O" := by
  unfold Board.humanSymbol; split <;> simp

theorem humanSymbol_ne_comp (b : Board) : b.humanSymbol ≠ b.compSymbol := by
  by_cases h : b.compSymbol = "X"
  · simp [Board.humanSymbol, h]
  · simp only [Board.humanSymbol, if_neg h]
    exact fun hh => h hh.symm

theorem playerSymbol_ok {b : Board} (h : OkSym b.compSymbol) :
    b.playerSymbol = "X" ∨ b.playerSymbol = "O" := by
  unfold Board.playerSymbol; split
  · exact h
  · exact humanSymbol_ok b

theorem playerSymbol_ne_E {b : Board} (h : OkSym b.compSymbol) : b.playerSymbol ≠ "E" := by
  rcases playerSymbol_ok h with h' | h' <;> simp [h']

theorem lt_length_of_getD_ne {α : Type _} {l : List α} {i : Nat} {d : α}
    (h : l.getD i d ≠ d) : i < l.length := by
  by_contra hge
  rw [List.getD_eq_getElem?_getD, List.getElem?_eq_none (by omega)] at h
  exact h rfl

theorem getD_mem {α : Type _} {l : List α} {i : Nat} {d : α} (h : i < l.length) :
    l.getD i d ∈ l := by
  rw [List.getD_eq_getElem?_getD, List.getElem?_eq_getElem h]
  exact List.getElem_mem h

theorem mem_getChildBoards {b ch : Board} :
    ch ∈ b.getChildBoards ↔ ∃ y x, y < b.boardSize ∧ x < b.boardSize ∧
      (b.state.getD y []).getD x "undefined" = "E" ∧ ch = b.placeAt y x := by
  simp only [Board.getChildBoards, List.mem_flatMap, List.mem_filterMap, List.mem_range]
  constructor
  · rintro ⟨y, hy, x, hx, hif⟩
    split at hif
    · exact ⟨y, x, hy, hx, by assumption, (Option.some.inj hif).symm⟩
    · cases hif
  · rintro ⟨y, x, hy, hx, hE, rfl⟩
    exact ⟨y, hy, x, hx, by rw [if_pos hE]⟩

theorem eCount_set {row : List String} {x : Nat} {sym : String}
    (hx : row.getD x "undefined" = "E") (hsym : sym ≠ "E") :
    eCount (row.set x sym) + 1 = eCount row := by
  induction row generalizing x with
  | nil => simp [List.getD] at hx
  | cons a t ih =>
    cases x with
    | zero =>
      simp only [List.getD_cons_zero] at hx
      subst hx
      simp [eCount, List.filter_cons, hsym]
    | succ n =>
      simp only [List.getD_cons_succ] at hx
      have h' := ih hx
      by_cases ha : a = "E" <;> simp [eCount, List.filter_cons, ha] at h' ⊢ <;> omega

theorem countE_set {g : List (List String)} {y : Nat} {row' : List String} (hy : y < g.length) :
    countE (g.set y row') + eCount (g.getD y []) = countE g + eCount row' := by
  induction g generalizing y with
  | nil => simp at hy
  | cons r t ih =>
    cases y with
    | zero => simp [countE]; omega
    | succ n =>
      have h' := ih (by simpa using hy)
      simp only [List.set_cons_succ, countE, List.map_cons, List.sum_cons,
        List.getD_cons_succ] at h' ⊢
      omega

theorem countE_placeAt {b : Board} {y x : Nat} (hy : y < b.state.length)
    (hE : (b.state.getD y []).getD x "undefined" = "E") (hne : b.playerSymbol ≠ "E") :
    countE (b.placeAt y x).state + 1 = countE b.state := by
  have hset : countE (b.state.set y ((b.state.getD y []).set x b.playerSymbol)) +
      eCount (b.state.getD y []) =
      countE b.state + eCount ((b.state.getD y []).set x b.playerSymbol) :=
    countE_set hy
  have hrow : eCount ((b.state.getD y []).set x b.playerSymbol) + 1 =
      eCount (b.state.getD y []) :=
    eCount_set hE hne
  simp only [Board.placeAt]
  omega

theorem turnOf_succ (ft : Bool) (e : Nat) : turnOf ft (e + 1) = !turnOf ft e := by
  rcases Nat.mod_two_eq_zero_or_one e with h | h <;>
    simp [turnOf, h, Nat.succ_mod_two_eq_zero_iff, Nat.succ_mod_two_eq_one_iff]

theorem squareGrid_placeAt {b : Board} {y x : Nat} (hsq : SquareGrid b.state)
    (hy : y < b.state.length) : SquareGrid (b.placeAt y x).state := by
  intro row hrow
  simp only [Board.placeAt] at hrow ⊢
  rw [List.length_set]
  rcases List.mem_or_eq_of_mem_set hrow with h | h
  · exact hsq _ h
  · subst h
    rw [List.length_set]
    exact hsq _ (getD_mem hy)

theorem okCells_placeAt {b : Board} {y x : Nat} (hok : OkCells b.state)
    (hy : y < b.state.length) (hsym : OkSym b.compSymbol) : OkCells (b.placeAt y x).state := by
  intro row hrow c hc
  simp only [Board.placeAt] at hrow
  rcases List.mem_or_eq_of_mem_set hrow with h | h
  · exact hok _ h _ hc
  · subst h
    rcases List.mem_or_eq_of_mem_set hc with h' | h'
    · exact hok _ (getD_mem hy) _ h'
    · subst h'
      rcases playerSymbol_ok hsym with h' | h' <;> simp [h']

theorem InvB_child {cs : String} {N : Nat} {ft : Bool} {b ch : Board}
    (h : InvB cs N ft b) (hch : ch ∈ b.getChildBoards) :
    InvB cs N ft ch ∧ countE ch.state + 1 = countE b.state := by
  obtain ⟨⟨hsq, hok, hcs⟩, hceq, hlen, hturn⟩ := h
  rcases mem_getChildBoards.mp hch with ⟨y, x, hy, hx, hE, rfl⟩
  have hy' : y < b.state.length := hy
  have hcnt : countE (b.placeAt y x).state + 1 = countE b.state :=
    countE_placeAt hy' hE (playerSymbol_ne_E hcs)
  refine ⟨⟨⟨squareGrid_placeAt hsq hy', okCells_placeAt hok hy' hcs, ?_⟩, ?_, ?_, ?_⟩, hcnt⟩
  · exact hcs
  · exact hceq
  · simp only [Board.placeAt, List.length_set]; exact hlen
  · show (!b.isCompTurn) = turnOf ft (countE (b.placeAt y x).state)
    have he : countE b.state = countE (b.placeAt y x).state + 1 := hcnt.symm
    rw [hturn, he, turnOf_succ]
    simp

theorem child_compSymbol {b ch : Board} (hch : ch ∈ b.getChildBoards) :
    ch.compSymbol = b.compSymbol := by
  rcases mem_getChildBoards.mp hch with ⟨y, x, _, _, _, rfl⟩
  rfl

theorem child_countE {b ch : Board} (hcs : OkSym b.compSymbol) (hch : ch ∈ b.getChildBoards) :
    countE ch.state + 1 = countE b.state := by
  rcases mem_getChildBoards.mp hch with ⟨y, x, hy, _, hE, rfl⟩
  exact countE_placeAt hy hE (playerSymbol_ne_E hcs)

/-! Fuel irrelevance of the score recursion and the minimax fixpoint. -/

theorem scoreF_fuel (fuel : Nat) :
    ∀ b : Board, OkSym b.compSymbol → countE b.state + 1 ≤ fuel → scoreF fuel b = score b := by
  induction fuel using Nat.strong_induction_on with
  | _ fuel ih =>
    intro b hcs hfuel
    match fuel, hfuel with
    | fuel + 1, hfuel =>
      have hmap : b.getChildBoards.map (scoreF fuel) =
          b.getChildBoards.map (scoreF (countE b.state)) := by
        apply List.map_congr_left
        intro ch hch
        have hc := child_countE hcs hch
        have hcs' : OkSym ch.compSymbol := by rw [child_compSymbol hch]; exact hcs
        rw [ih fuel (Nat.lt_succ_self fuel) ch hcs' (by omega),
          ih (countE b.state) (by omega) ch hcs' (by omega)]
      have hrfl : score b = scoreStep (scoreF (countE b.state)) b := rfl
      show scoreStep (scoreF fuel) b = score b
      rw [hrfl]
      unfold scoreStep
      rw [hmap]

theorem score_eq_forceGetScore {b : Board} (hcs : OkSym b.compSymbol) :
    score b = b.forceGetScore := by
  have hrfl : score b = scoreStep (scoreF (countE b.state)) b := rfl
  have hmap : b.getChildBoards.map (scoreF (countE b.state)) = b.getChildBoards.map score := by
    apply List.map_congr_left
    intro ch hch
    have hc := child_countE hcs hch
    have hcs' : OkSym ch.compSymbol := by rw [child_compSymbol hch]; exact hcs
    exact scoreF_fuel (countE b.state) ch hcs' (by omega)
  rw [hrfl]
  unfold Board.forceGetScore scoreStep
  rw [hmap]

/-! Membership facts for the spread `Math.max` / `Math.min`. -/

theorem foldl_max_mem (xs : List Int) (x : Int) : xs.foldl max x = x ∨ xs.foldl max x ∈ xs := by
  induction xs generalizing x with
  | nil => left; rfl
  | cons a t ih =>
    simp only [List.foldl_cons]
    rcases ih (max x a) with h | h
    · by_cases hxa : x ≤ a
      · right; rw [h, max_eq_right hxa]; exact List.mem_cons_self a t
      · left; rw [h]; exact max_eq_left (le_of_not_le hxa)
    · right; exact List.mem_cons_of_mem a h

theorem foldl_min_mem (xs : List Int) (x : Int) : xs.foldl min x = x ∨ xs.foldl min x ∈ xs := by
  induction xs generalizing x with
  | nil => left; rfl
  | cons a t ih =>
    simp only [List.foldl_cons]
    rcases ih (min x a) with h | h
    · by_cases hxa : a ≤ x
      · right; rw [h, min_eq_right hxa]; exact List.mem_cons_self a t
      · left; rw [h]; exact min_eq_left (le_of_not_le hxa)
    · right; exact List.mem_cons_of_mem a h

theorem maxList_mem {l : List Int} (h : l ≠ []) : maxList l ∈ l := by
  match l, h with
  | x :: xs, _ =>
    show xs.foldl max x ∈ x :: xs
    rcases foldl_max_mem xs x with h' | h'
    · rw [h']; exact List.mem_cons_self x xs
    · exact List.mem_cons_of_mem x h'

theorem minList_mem {l : List Int} (h : l ≠ []) : minList l ∈ l := by
  match l, h with
  | x :: xs, _ =>
    show xs.foldl min x ∈ x :: xs
    rcases foldl_min_mem xs x with h' | h'
    · rw [h']; exact List.mem_cons_self x xs
    · exact List.mem_cons_of_mem x h'

/-! Lines and the winner scan. -/

/-- Every cell of the line is a legal symbol. -/
def OkLine (line : List String) : Prop := ∀ c ∈ line, c = "X" ∨ c = "O" ∨ c = "E"

/-- Stated from the spec (claim C5): a line that "consists entirely of that
non-empty mark" — nonempty, all cells equal to its first cell, which is not
the empty mark. -/
def isWinLine (line : List String) : Bool :=
  !line.isEmpty && (line.all (fun sq => sq == line.getD 0 "undefined")
    && line.getD 0 "undefined" != "E")

/-- Stated from the spec (claim C5): the first uniform non-empty line in the
scan order rows, columns, diagonals gives the winner; otherwise the game is
drawn when no line has an empty cell, else ongoing. -/
def winnerSpec (b : Board) : String :=
  match b.lines.find? isWinLine with
  | some l => l.getD 0 "undefined"
  | none => if b.lines.all (fun l => !l.contains "E") then "D" else "L"

theorem contains_E_iff (line : List String) : line.contains "E" = true ↔ "E" ∈ line := by
  simp [List.contains_iff_exists_mem_beq, beq_iff_eq, eq_comm]

theorem getLineWinner_eq_E_iff (line : List String) : getLineWinner line = "E" ↔ "E" ∈ line := by
  unfold getLineWinner
  by_cases hc : "E" ∈ line
  · rw [if_pos ((contains_E_iff line).mpr hc)]
    simp [hc]
  · rw [if_neg (fun h => hc ((contains_E_iff line).mp h))]
    refine iff_of_false ?_ hc
    split
    · intro h
      cases line with
      | nil => exact absurd h (by decide)
      | cons a t =>
        simp only [List.getD_cons_zero] at h
        exact hc (h ▸ List.mem_cons_self a t)
    · intro h
      exact absurd h (by decide)

theorem lineWinner_of_win {line : List String} (hok : OkLine line) (hw : isWinLine line = true) :
    getLineWinner line = line.getD 0 "undefined" ∧
      (getLineWinner line = "X" ∨ getLineWinner line = "O") := by
  simp only [isWinLine, Bool.and_eq_true, Bool.not_eq_true', List.isEmpty_eq_false,
    bne_iff_ne, List.all_eq_true, beq_iff_eq] at hw
  obtain ⟨hne, hall, hE⟩ := hw
  have hmem : line.getD 0 "undefined" ∈ line := by
    cases line with
    | nil => exact absurd rfl hne
    | cons a t => exact List.mem_cons_self a t
  have hnc : "E" ∉ line := by
    intro hcE
    exact hE (by rw [← hall _ hcE])
  have h1 : getLineWinner line = line.getD 0 "undefined" := by
    unfold getLineWinner
    rw [if_neg (fun h => hnc ((contains_E_iff line).mp h)),
      if_pos (by simpa [List.all_eq_true] using hall)]
  refine ⟨h1, ?_⟩
  rw [h1]
  rcases hok _ hmem with h | h | h
  · left; exact h
  · right; exact h
  · exact absurd h hE

theorem win_of_lineWinner {line : List String}
    (h : getLineWinner line = "X" ∨ getLineWinner line = "O") : isWinLine line = true := by
  unfold getLineWinner at h
  by_cases hc : line.contains "E" = true
  · rw [if_pos hc] at h
    rcases h with h | h <;> exact absurd h (by decide)
  · rw [if_neg hc] at h
    by_cases hall : line.all (fun sq => sq == line.getD 0 "undefined") = true
    · rw [if_pos hall] at h
      cases line with
      | nil => rcases h with h | h <;> exact absurd h (by decide)
      | cons a t =>
        simp only [isWinLine, List.isEmpty_cons, Bool.not_false, Bool.true_and]
        rw [hall]
        simp only [Bool.true_and, bne_iff_ne]
        simp only [List.getD_cons_zero] at h ⊢
        rcases h with h | h <;> rw [h] <;> decide
    · rw [if_neg hall] at h
      rcases h with h | h <;> exact absurd h (by decide)

theorem winnerLoop_spec (lines : List (List String)) (d : Bool)
    (hok : ∀ l ∈ lines, OkLine l) :
    winnerLoop lines d = (match lines.find? isWinLine with
      | some l => l.getD 0 "undefined"
      | none => if d = true ∧ ∀ l ∈ lines, "E" ∉ l then "D" else "L") := by
  induction lines generalizing d with
  | nil => cases d <;> simp [winnerLoop]
  | cons line rest ih =>
    have hokl := hok line (List.mem_cons_self _ _)
    have hokr : ∀ l ∈ rest, OkLine l := fun l hl => hok l (List.mem_cons_of_mem _ hl)
    show (if getLineWinner line = "X" ∨ getLineWinner line = "O" then getLineWinner line
      else winnerLoop rest (if getLineWinner line = "E" then false else d)) = _
    by_cases hwin : isWinLine line = true
    · obtain ⟨heq, hxo⟩ := lineWinner_of_win hokl hwin
      rw [if_pos hxo, List.find?_cons_of_pos _ hwin]
      exact heq
    · have hnxo : ¬(getLineWinner line = "X" ∨ getLineWinner line = "O") :=
        fun h => hwin (win_of_lineWinner h)
      rw [if_neg hnxo, List.find?_cons_of_neg _ (by simpa using hwin), ih _ hokr]
      cases hfind : rest.find? isWinLine with
      | some l => simp
      | none =>
        simp only
        by_cases hE : "E" ∈ line
        · rw [if_pos ((getLineWinner_eq_E_iff line).mpr hE)]
          have h2 : ¬(d = true ∧ ∀ l ∈ line :: rest, "E" ∉ l) := by
            rintro ⟨-, hforall⟩
            exact hforall line (List.mem_cons_self _ _) hE
          rw [if_neg (by simp), if_neg h2]
        · rw [if_neg (fun h => hE ((getLineWinner_eq_E_iff line).mp h))]
          have hiff : (d = true ∧ ∀ l ∈ rest, "E" ∉ l) ↔
              (d = true ∧ ∀ l ∈ line :: rest, "E" ∉ l) := by
            simp [List.forall_mem_cons, hE]
          rw [if_congr hiff rfl rfl]

theorem lines_ok {b : Board} (hsq : SquareGrid b.state) (hok : OkCells b.state) :
    ∀ l ∈ b.lines, OkLine l := by
  intro l hl
  simp only [Board.lines, List.mem_append] at hl
  rcases hl with (hl | hl) | hl
  · exact fun c hc => hok l hl c hc
  · simp only [Board.getCols, List.mem_map, List.mem_range] at hl
    obtain ⟨x, hx, rfl⟩ := hl
    intro c hc
    simp only [List.mem_map] at hc
    obtain ⟨row, hrow, rfl⟩ := hc
    have hxlen : x < row.length := by rw [hsq row hrow]; exact hx
    exact hok row hrow _ (getD_mem hxlen)
  · simp only [Board.getDiags, List.mem_cons, List.not_mem_nil, or_false] at hl
    rcases hl with rfl | rfl <;> intro c hc <;> rw [List.mem_mapIdx] at hc <;>
      obtain ⟨i, hi, rfl⟩ := hc
    · have hrow : b.state[i] ∈ b.state := List.getElem_mem hi
      have hlen : i < b.state[i].length := by rw [hsq _ hrow]; exact hi
      exact hok _ hrow _ (getD_mem hlen)
    · have hrow : b.state[i] ∈ b.state := List.getElem_mem hi
      have hlen : b.boardSize - i - 1 < b.state[i].length := by
        rw [hsq _ hrow]
        show b.state.length - i - 1 < b.state.length
        omega
      exact hok _ hrow _ (getD_mem hlen)

theorem getWinner_eq_winnerSpec {b : Board} (hsq : SquareGrid b.state)
    (hok : OkCells b.state) : b.getWinner = winnerSpec b := by
  have hl := lines_ok hsq hok
  unfold Board.getWinner winnerSpec
  rw [winnerLoop_spec _ _ hl]
  cases hfind : b.lines.find? isWinLine with
  | some l => simp
  | none =>
    simp only
    have hiff : (True ∧ ∀ l ∈ b.lines, "E" ∉ l) ↔
        (b.lines.all (fun l => !l.contains "E") = true) := by
      simp [List.all_eq_true, contains_E_iff]
    rw [if_congr hiff rfl rfl]

/-! Consequences of the scanned outcome for the score branches. -/

theorem winnerLoop_D {lines : List (List String)} {d : Bool} (h : winnerLoop lines d = "D") :
    d = true ∧ ∀ l ∈ lines, getLineWinner l ≠ "E" := by
  induction lines generalizing d with
  | nil =>
    cases d
    · exact absurd h (by decide)
    · exact ⟨rfl, by simp⟩
  | cons line rest ih =>
    have h' : (if getLineWinner line = "X" ∨ getLineWinner line = "O" then getLineWinner line
      else winnerLoop rest (if getLineWinner line = "E" then false else d)) = "D" := h
    split at h'
    · rename_i hxo
      rcases hxo with hx | hx <;> rw [hx] at h' <;> exact absurd h' (by decide)
    · obtain ⟨hd, hrest⟩ := ih h'
      by_cases hE : getLineWinner line = "E"
      · rw [if_pos hE] at hd
        exact absurd hd (by decide)
      · rw [if_neg hE] at hd
        refine ⟨hd, ?_⟩
        intro l hl
        rcases List.mem_cons.mp hl with rfl | hl
        · exact hE
        · exact hrest l hl

theorem countE_eq_zero_of_winner_D {b : Board} (h : b.getWinner = "D") :
    countE b.state = 0 := by
  obtain ⟨-, hlines⟩ := winnerLoop_D h
  have hrows : ∀ row ∈ b.state, "E" ∉ row := by
    intro row hrow
    have hmem : row ∈ b.lines := by
      simp only [Board.lines, List.mem_append]
      exact Or.inl (Or.inl hrow)
    exact fun hE => hlines row hmem ((getLineWinner_eq_E_iff row).mpr hE)
  unfold countE
  apply List.sum_eq_zero
  intro n hn
  rcases List.mem_map.mp hn with ⟨row, hrow, rfl⟩
  have : row.filter (fun c => c == "E") = [] := by
    rw [List.filter_eq_nil_iff]
    intro c hc
    simp only [beq_iff_eq]
    intro hcE
    exact hrows row hrow (hcE ▸ hc)
  simp [eCount, this]

theorem getChildBoards_eq_nil_of_countE {b : Board} (h : countE b.state = 0) :
    b.getChildBoards = [] := by
  rw [List.eq_nil_iff_forall_not_mem]
  intro ch hch
  rcases mem_getChildBoards.mp hch with ⟨y, x, hy, hx, hE, -⟩
  have hxlen : x < (b.state.getD y []).length :=
    lt_length_of_getD_ne (by rw [hE]; decide)
  have hmem : "E" ∈ b.state.getD y [] := by rw [← hE]; exact getD_mem hxlen
  have hrow : b.state.getD y [] ∈ b.state := getD_mem hy
  have h1 : 1 ≤ eCount (b.state.getD y []) := by
    have : "E" ∈ (b.state.getD y []).filter (fun c => c == "E") :=
      List.mem_filter.mpr ⟨hmem, by simp⟩
    have := List.length_pos.mpr (List.ne_nil_of_mem this)
    simpa [eCount] using this
  have h2 : eCount (b.state.getD y []) ≤ countE b.state := by
    apply List.single_le_sum (by intro x hx; omega)
    exact List.mem_map_of_mem eCount hrow
  omega

theorem forceGetScore_draw {b : Board} (hcs : OkSym b.compSymbol) (h : b.getWinner = "D") :
    b.getChildBoards = [] ∧ b.forceGetScore = 0 := by
  have hnil := getChildBoards_eq_nil_of_countE (countE_eq_zero_of_winner_D h)
  refine ⟨hnil, ?_⟩
  unfold Board.forceGetScore scoreStep
  rw [if_neg (by rw [h]; rcases hcs with h' | h' <;> rw [h'] <;> decide),
    if_neg (by rw [h]; rcases humanSymbol_ok b with h' | h' <;> rw [h'] <;> decide),
    if_pos h, hnil]
  decide

theorem forceGetScore_humanWin {b : Board} (h : b.getWinner = b.humanSymbol) :
    b.forceGetScore = -100 + (b.getChildBoards.length : Int) := by
  unfold Board.forceGetScore scoreStep
  rw [if_neg (by rw [h]; exact humanSymbol_ne_comp b), if_pos h]

theorem forceGetScore_ongoing {b : Board} (hcs : OkSym b.compSymbol) (hw : b.getWinner = "L") :
    b.forceGetScore = if b.isCompTurn then maxList (b.getChildBoards.map score)
      else minList (b.getChildBoards.map score) := by
  unfold Board.forceGetScore scoreStep
  rw [if_neg (by rw [hw]; rcases hcs with h' | h' <;> rw [h'] <;> decide),
    if_neg (by rw [hw]; rcases humanSymbol_ok b with h' | h' <;> rw [h'] <;> decide),
    if_neg (by rw [hw]; decide)]

theorem score_ongoing {b : Board} (hcs : OkSym b.compSymbol) (hw : b.getWinner = "L") :
    score b = if b.isCompTurn then maxList (b.getChildBoards.map score)
      else minList (b.getChildBoards.map score) := by
  rw [score_eq_forceGetScore hcs]
  exact forceGetScore_ongoing hcs hw

/-! An ongoing position has an empty cell, hence at least one child. -/

theorem exists_E_line_of_winner_L {b : Board} (hsq : SquareGrid b.state)
    (hok : OkCells b.state) (hw : b.getWinner = "L") : ∃ l ∈ b.lines, "E" ∈ l := by
  have hl := lines_ok hsq hok
  have hspec := winnerLoop_spec b.lines true hl
  rw [Board.getWinner] at hw
  rw [hspec] at hw
  cases hfind : b.lines.find? isWinLine with
  | some l =>
    rw [hfind] at hw
    simp only at hw
    obtain ⟨heq, hxo⟩ := lineWinner_of_win (hl _ (List.mem_of_find?_eq_some hfind))
      (List.find?_some hfind)
    have hL : getLineWinner l = "L" := heq.trans hw
    rcases hxo with h | h <;> exact absurd (h.symm.trans hL) (by decide)
  | none =>
    rw [hfind] at hw
    simp only at hw
    split at hw
    · exact absurd hw (by decide)
    · rename_i hcond
      simp only [true_and, not_forall] at hcond
      obtain ⟨l, hl', hE⟩ := hcond
      exact ⟨l, hl', by simpa using hE⟩

theorem getD_eq_getElem {α : Type _} {l : List α} {i : Nat} {d : α} (h : i < l.length) :
    l.getD i d = l[i] := by
  rw [List.getD_eq_getElem?_getD, List.getElem?_eq_getElem h]
  rfl

theorem exists_E_cell_of_winner_L {b : Board} (hsq : SquareGrid b.state)
    (hok : OkCells b.state) (hw : b.getWinner = "L") :
    ∃ y x, y < b.boardSize ∧ x < b.boardSize ∧
      (b.state.getD y []).getD x "undefined" = "E" := by
  obtain ⟨l, hl, hE⟩ := exists_E_line_of_winner_L hsq hok hw
  simp only [Board.lines, List.mem_append] at hl
  rcases hl with (hl | hl) | hl
  · simp only [Board.getRows] at hl
    obtain ⟨y, hy, rfl⟩ := List.getElem_of_mem hl
    obtain ⟨x, hx, hxE⟩ := List.getElem_of_mem hE
    refine ⟨y, x, hy, ?_, ?_⟩
    · have := hsq _ (List.getElem_mem hy)
      show x < b.state.length
      omega
    · rw [getD_eq_getElem hy, getD_eq_getElem hx]
      exact hxE
  · simp only [Board.getCols, List.mem_map, List.mem_range] at hl
    obtain ⟨x, hx, rfl⟩ := hl
    simp only [List.mem_map] at hE
    obtain ⟨row, hrow, hrowE⟩ := hE
    obtain ⟨y, hy, rfl⟩ := List.getElem_of_mem hrow
    exact ⟨y, x, hy, hx, by rw [getD_eq_getElem hy]; exact hrowE⟩
  · simp only [Board.getDiags, List.mem_cons, List.not_mem_nil, or_false] at hl
    rcases hl with rfl | rfl <;> rw [List.mem_mapIdx] at hE <;> obtain ⟨i, hi, hiE⟩ := hE
    · exact ⟨i, i, hi, hi, by rw [getD_eq_getElem hi]; exact hiE⟩
    · refine ⟨i, b.boardSize - i - 1, hi, ?_, by rw [getD_eq_getElem hi]; exact hiE⟩
      show b.state.length - i - 1 < b.state.length
      omega

theorem getChildBoards_ne_nil {b : Board} (hsq : SquareGrid b.state)
    (hok : OkCells b.state) (hw : b.getWinner = "L") : b.getChildBoards ≠ [] := by
  obtain ⟨y, x, hy, hx, hE⟩ := exists_E_cell_of_winner_L hsq hok hw
  exact List.ne_nil_of_mem (mem_getChildBoards.mpr ⟨y, x, hy, hx, hE, rfl⟩)

/-! Injectivity of the cache encoding on one session's grids: two square
grids of legal cells with the same dimensions and the same `join(";")`
string are equal. -/

/-- Character list of one row's `join(",")`. -/
def rowChars (row : List String) : List Char :=
  List.intercalate [','] (row.map String.data)

theorem encode_eq_mk (g : List (List String)) :
    encode g = String.mk (List.intercalate [';'] (g.map rowChars)) := rfl

theorem okCell_data {c : String} (h : c = "X" ∨ c = "O" ∨ c = "E") :
    ∃ ch : Char, c.data = [ch] ∧ ch ≠ ',' ∧ ch ≠ ';' := by
  rcases h with rfl | rfl | rfl
  · exact ⟨'X', rfl, by decide, by decide⟩
  · exact ⟨'O', rfl, by decide, by decide⟩
  · exact ⟨'E', rfl, by decide, by decide⟩

theorem mem_intersperse {α : Type _} {sep x : α} :
    ∀ {l : List α}, x ∈ l.intersperse sep → x = sep ∨ x ∈ l := by
  intro l
  induction l with
  | nil => simp
  | cons a t ih =>
    cases t with
    | nil =>
      intro h
      rw [List.intersperse_single] at h
      right; exact h
    | cons b u =>
      intro h
      rw [List.intersperse_cons₂] at h
      rcases List.mem_cons.mp h with rfl | h
      · right; exact List.mem_cons_self _ _
      · rcases List.mem_cons.mp h with rfl | h
        · left; rfl
        · rcases ih h with h' | h'
          · left; exact h'
          · right; exact List.mem_cons_of_mem _ h'

theorem mem_intercalate {α : Type _} {sep : List α} {l : List (List α)} {x : α}
    (h : x ∈ List.intercalate sep l) : x ∈ sep ∨ ∃ m ∈ l, x ∈ m := by
  unfold List.intercalate at h
  rcases List.mem_flatten.mp h with ⟨m, hm, hx⟩
  rcases mem_intersperse hm with rfl | hm
  · left; exact hx
  · right; exact ⟨m, hm, hx⟩

theorem rowChars_no_semi {row : List String} (hok : ∀ c ∈ row, c = "X" ∨ c = "O" ∨ c = "E") :
    (';' : Char) ∉ rowChars row := by
  intro h
  rcases mem_intercalate h with h' | ⟨m, hm, h'⟩
  · simp at h'
  · rcases List.mem_map.mp hm with ⟨s, hs, rfl⟩
    obtain ⟨ch, hdata, -, hsemi⟩ := okCell_data (hok s hs)
    rw [hdata] at h'
    exact hsemi (List.mem_singleton.mp h').symm

theorem rowChars_inj {r s : List String}
    (hr : ∀ c ∈ r, c = "X" ∨ c = "O" ∨ c = "E") (hs : ∀ c ∈ s, c = "X" ∨ c = "O" ∨ c = "E")
    (hner : r ≠ []) (hnes : s ≠ []) (h : rowChars r = rowChars s) : r = s := by
  have hcomma : ∀ {row : List String}, (∀ c ∈ row, c = "X" ∨ c = "O" ∨ c = "E") →
      ∀ l ∈ row.map String.data, (',' : Char) ∉ l := by
    intro row hok l hl hc
    rcases List.mem_map.mp hl with ⟨c, hcm, rfl⟩
    obtain ⟨ch, hdata, hcom, -⟩ := okCell_data (hok c hcm)
    rw [hdata] at hc
    exact hcom (List.mem_singleton.mp hc).symm
  have h1 : (rowChars r).splitOn ',' = r.map String.data :=
    List.splitOn_intercalate (r.map String.data) ',' (hcomma hr) (by simpa using hner)
  have h2 : (rowChars s).splitOn ',' = s.map String.data :=
    List.splitOn_intercalate (s.map String.data) ',' (hcomma hs) (by simpa using hnes)
  have : r.map String.data = s.map String.data := by
    rw [← h1, ← h2, h]
  exact List.map_injective_iff.mpr (fun a b hab => String.ext hab) this

theorem map_rowChars_inj :
    ∀ {g₁ g₂ : List (List String)}, OkCells g₁ → OkCells g₂ →
      (∀ r ∈ g₁, r ≠ []) → (∀ r ∈ g₂, r ≠ []) →
      g₁.map rowChars = g₂.map rowChars → g₁ = g₂ := by
  intro g₁
  induction g₁ with
  | nil =>
    intro g₂ _ _ _ _ h
    cases g₂ with
    | nil => rfl
    | cons s u => exact absurd h (by simp)
  | cons r t ih =>
    intro g₂ hok₁ hok₂ hne₁ hne₂ h
    cases g₂ with
    | nil => exact absurd h (by simp)
    | cons s u =>
      simp only [List.map_cons, List.cons.injEq] at h
      have hr : r = s := rowChars_inj (hok₁ r (List.mem_cons_self _ _))
        (hok₂ s (List.mem_cons_self _ _)) (hne₁ r (List.mem_cons_self _ _))
        (hne₂ s (List.mem_cons_self _ _)) h.1
      have ht : t = u := ih (fun row hrow => hok₁ row (List.mem_cons_of_mem _ hrow))
        (fun row hrow => hok₂ row (List.mem_cons_of_mem _ hrow))
        (fun row hrow => hne₁ row (List.mem_cons_of_mem _ hrow))
        (fun row hrow => hne₂ row (List.mem_cons_of_mem _ hrow)) h.2
      rw [hr, ht]

theorem encode_inj {g₁ g₂ : List (List String)} (hok₁ : OkCells g₁) (hok₂ : OkCells g₂)
    (hsq₁ : SquareGrid g₁) (hsq₂ : SquareGrid g₂) (hlen : g₁.length = g₂.length)
    (h : encode g₁ = encode g₂) : g₁ = g₂ := by
  rcases Nat.eq_zero_or_pos g₁.length with hz | hpos
  · have h₁ : g₁ = [] := List.length_eq_zero.mp hz
    have h₂ : g₂ = [] := List.length_eq_zero.mp (by omega)
    rw [h₁, h₂]
  · have hne₁ : ∀ r ∈ g₁, r ≠ [] := by
      intro r hr
      have := hsq₁ r hr
      intro hnil
      rw [hnil] at this
      simp at this
      omega
    have hne₂ : ∀ r ∈ g₂, r ≠ [] := by
      intro r hr
      have := hsq₂ r hr
      intro hnil
      rw [hnil] at this
      simp at this
      omega
    have hsemi₁ : ∀ l ∈ g₁.map rowChars, (';' : Char) ∉ l := by
      intro l hl
      rcases List.mem_map.mp hl with ⟨row, hrow, rfl⟩
      exact rowChars_no_semi (hok₁ row hrow)
    have hsemi₂ : ∀ l ∈ g₂.map rowChars, (';' : Char) ∉ l := by
      intro l hl
      rcases List.mem_map.mp hl with ⟨row, hrow, rfl⟩
      exact rowChars_no_semi (hok₂ row hrow)
    rw [encode_eq_mk, encode_eq_mk] at h
    have hdata : List.intercalate [';'] (g₁.map rowChars) =
        List.intercalate [';'] (g₂.map rowChars) := by
      injection h
    have hmap : g₁.map rowChars = g₂.map rowChars := by
      have e₁ := List.splitOn_intercalate (g₁.map rowChars) ';' hsemi₁
        (by
          intro hnil
          have hlen0 := congrArg List.length hnil
          rw [List.length_map] at hlen0
          simp only [List.length_nil] at hlen0
          omega)
      have e₂ := List.splitOn_intercalate (g₂.map rowChars) ';' hsemi₂
        (by
          intro hnil
          have hlen0 := congrArg List.length hnil
          rw [List.length_map] at hlen0
          simp only [List.length_nil] at hlen0
          omega)
      rw [← e₁, ← e₂, hdata]
    exact map_rowChars_inj hok₁ hok₂ hne₁ hne₂ hmap

theorem InvB_encode_inj {cs : String} {N : Nat} {ft : Bool} {b b' : Board}
    (h : InvB cs N ft b) (h' : InvB cs N ft b')
    (henc : encode b.state = encode b'.state) : b = b' := by
  obtain ⟨⟨hsq, hok, -⟩, hceq, hlen, hturn⟩ := h
  obtain ⟨⟨hsq', hok', -⟩, hceq', hlen', hturn'⟩ := h'
  have hstate : b.state = b'.state :=
    encode_inj hok hok' hsq hsq' (by rw [hlen, hlen']) henc
  cases b with
  | mk st cS iT =>
    cases b' with
    | mk st' cS' iT' =>
      simp only at hstate hceq hceq' hturn hturn'
      subst hstate
      rw [hceq, ← hceq'] at *
      rw [hturn, hturn']


/-! Correctness of the memoized, cache-threading scorer: on a session cache
that is correct, `getScore` returns the true minimax value, keeps the cache
correct, caches the queried position, and never loses or changes an entry. -/

theorem emptyCache_ok (cs : String) (N : Nat) (ft : Bool) : CacheOK cs N ft emptyCache :=
  fun _ _ v hv => absurd hv (by simp [emptyCache])

theorem cacheOK_insert {cs : String} {N : Nat} {ft : Bool} {c : Cache} {b : Board}
    (hOK : CacheOK cs N ft c) (hb : InvB cs N ft b) :
    CacheOK cs N ft (c.insert (encode b.state) (score b)) := by
  intro b' hb' v hv
  unfold Cache.insert at hv
  split at hv
  · rename_i heq
    rw [InvB_encode_inj hb' hb heq]
    exact (Option.some.inj hv).symm
  · exact hOK b' hb' v hv

/-- Correctness of the fuelled `getScore` at a given fuel: true value, cache
kept correct, queried position cached, existing entries untouched. -/
def ScoreOK (cs : String) (N : Nat) (ft : Bool) (fuel : Nat) : Prop :=
  ∀ (b : Board) (c : Cache), InvB cs N ft b → CacheOK cs N ft c →
    countE b.state + 1 ≤ fuel →
    (getScoreCF fuel b c).1 = score b ∧
    CacheOK cs N ft (getScoreCF fuel b c).2.1 ∧
    (getScoreCF fuel b c).2.1 (encode b.state) = some (score b) ∧
    (∀ s v, c s = some v → (getScoreCF fuel b c).2.1 s = some v)

theorem childScoresAux_correct {cs : String} {N : Nat} {ft : Bool} {fuel : Nat}
    (ih : ScoreOK cs N ft fuel) :
    ∀ (l : List Board) (c : Cache),
      (∀ ch ∈ l, InvB cs N ft ch ∧ countE ch.state + 1 ≤ fuel) → CacheOK cs N ft c →
      (childScoresAux (getScoreCF fuel) l c).1 = l.map score ∧
      CacheOK cs N ft (childScoresAux (getScoreCF fuel) l c).2.1 ∧
      (∀ s v, c s = some v → (childScoresAux (getScoreCF fuel) l c).2.1 s = some v) := by
  intro l
  induction l with
  | nil => exact fun c _ hOK => ⟨rfl, hOK, fun s v hv => hv⟩
  | cons ch rest ihl =>
    intro c hl hOK
    obtain ⟨hch, hchfuel⟩ := hl ch (List.mem_cons_self _ _)
    obtain ⟨hval, hOK', -, hext⟩ := ih ch c hch hOK hchfuel
    obtain ⟨hval', hOK'', hext'⟩ :=
      ihl (getScoreCF fuel ch c).2.1 (fun x hx => hl x (List.mem_cons_of_mem _ hx)) hOK'
    refine ⟨?_, hOK'', ?_⟩
    · show (getScoreCF fuel ch c).1 ::
        (childScoresAux (getScoreCF fuel) rest (getScoreCF fuel ch c).2.1).1 = _
      rw [hval, hval', List.map_cons]
    · intro s v hv
      exact hext' s v (hext s v hv)

theorem forceGetScoreStep_correct {cs : String} {N : Nat} {ft : Bool} {fuel : Nat}
    {b : Board} {c : Cache} (hb : InvB cs N ft b) (hOK : CacheOK cs N ft c)
    (hch : ∀ ch ∈ b.getChildBoards, InvB cs N ft ch ∧ countE ch.state + 1 ≤ fuel)
    (ih : ScoreOK cs N ft fuel) :
    (forceGetScoreStep (getScoreCF fuel) b c).1 = score b ∧
    CacheOK cs N ft (forceGetScoreStep (getScoreCF fuel) b c).2.1 ∧
    (∀ s v, c s = some v → (forceGetScoreStep (getScoreCF fuel) b c).2.1 s = some v) := by
  have hcs : OkSym b.compSymbol := hb.1.2.2
  have hscore : score b = scoreStep score b := score_eq_forceGetScore hcs
  unfold forceGetScoreStep
  by_cases h1 : b.getWinner = b.compSymbol
  · rw [if_pos h1]
    refine ⟨?_, hOK, fun s v hv => hv⟩
    rw [hscore]
    unfold scoreStep
    rw [if_pos h1]
  · rw [if_neg h1]
    by_cases h2 : b.getWinner = b.humanSymbol
    · rw [if_pos h2]
      refine ⟨?_, hOK, fun s v hv => hv⟩
      rw [hscore]
      unfold scoreStep
      rw [if_neg h1, if_pos h2]
    · rw [if_neg h2]
      by_cases h3 : b.getWinner = "D"
      · rw [if_pos h3]
        refine ⟨?_, hOK, fun s v hv => hv⟩
        rw [hscore]
        unfold scoreStep
        rw [if_neg h1, if_neg h2, if_pos h3]
      · rw [if_neg h3]
        obtain ⟨hmap, hOK', hext⟩ := childScoresAux_correct ih b.getChildBoards c hch hOK
        refine ⟨?_, hOK', hext⟩
        show (if b.isCompTurn then maxList (childScoresAux (getScoreCF fuel) b.getChildBoards c).1
          else minList (childScoresAux (getScoreCF fuel) b.getChildBoards c).1) = score b
        rw [hmap, hscore]
        unfold scoreStep
        rw [if_neg h1, if_neg h2, if_neg h3]

theorem getScoreCF_correct (cs : String) (N : Nat) (ft : Bool) :
    ∀ fuel : Nat, ScoreOK cs N ft fuel := by
  intro fuel
  induction fuel with
  | zero => intro b c _ _ hfuel; omega
  | succ fuel ih =>
    intro b c hb hOK hfuel
    by_cases hhit : truthy (c (encode b.state)) = true
    · have hres : getScoreCF (fuel + 1) b c = ((c (encode b.state)).getD 0, c, 0) := by
        show (if truthy (c (encode b.state)) then ((c (encode b.state)).getD 0, c, (0 : Nat))
          else
            (let r := forceGetScoreStep (getScoreCF fuel) b c
             (r.1, Cache.insert r.2.1 (encode b.state) r.1, r.2.2))) = _
        rw [if_pos hhit]
      cases hc : c (encode b.state) with
      | none => rw [hc] at hhit; simp [truthy] at hhit
      | some v =>
        have hv : v = score b := hOK b hb v hc
        rw [hres, hc]
        refine ⟨by simp [hv], hOK, ?_, fun s v' hv' => hv'⟩
        show c (encode b.state) = some (score b)
        rw [hc, hv]
    · have hres : getScoreCF (fuel + 1) b c =
          ((forceGetScoreStep (getScoreCF fuel) b c).1,
           Cache.insert (forceGetScoreStep (getScoreCF fuel) b c).2.1 (encode b.state)
             (forceGetScoreStep (getScoreCF fuel) b c).1,
           (forceGetScoreStep (getScoreCF fuel) b c).2.2) := by
        show (if truthy (c (encode b.state)) then ((c (encode b.state)).getD 0, c, (0 : Nat))
          else
            (let r := forceGetScoreStep (getScoreCF fuel) b c
             (r.1, Cache.insert r.2.1 (encode b.state) r.1, r.2.2))) = _
        rw [if_neg hhit]
      have hch : ∀ ch ∈ b.getChildBoards, InvB cs N ft ch ∧ countE ch.state + 1 ≤ fuel := by
        intro ch hmem
        obtain ⟨hinv, hcnt⟩ := InvB_child hb hmem
        exact ⟨hinv, by omega⟩
      obtain ⟨hA, hB, hC⟩ := forceGetScoreStep_correct hb hOK hch ih
      rw [hres]
      refine ⟨hA, ?_, ?_, ?_⟩
      · show CacheOK cs N ft (Cache.insert _ (encode b.state) _)
        rw [hA]
        exact cacheOK_insert hB hb
      · show Cache.insert _ (encode b.state) _ (encode b.state) = some (score b)
        unfold Cache.insert
        rw [if_pos rfl, hA]
      · intro s v hv
        show Cache.insert _ (encode b.state) _ s = some v
        unfold Cache.insert
        split
        · rename_i hs
          rw [hA]
          rw [hs] at hv
          rw [hOK b hb v hv]
        · exact hC s v hv

theorem getScoreC_correct {cs : String} {N : Nat} {ft : Bool} {b : Board} {c : Cache}
    (hb : InvB cs N ft b) (hOK : CacheOK cs N ft c) :
    (b.getScoreC c).1 = score b ∧ CacheOK cs N ft (b.getScoreC c).2.1 ∧
    (b.getScoreC c).2.1 (encode b.state) = some (score b) ∧
    (∀ s v, c s = some v → (b.getScoreC c).2.1 s = some v) :=
  getScoreCF_correct cs N ft (countE b.state + 1) b c hb hOK (le_refl _)

theorem getScoreC_hit {b : Board} {c : Cache} (h : truthy (c (encode b.state)) = true) :
    b.getScoreC c = ((c (encode b.state)).getD 0, c, 0) := by
  show (if truthy (c (encode b.state)) then ((c (encode b.state)).getD 0, c, (0 : Nat))
    else
      (let r := forceGetScoreStep (getScoreCF (countE b.state)) b c
       (r.1, Cache.insert r.2.1 (encode b.state) r.1, r.2.2))) = _
  rw [if_pos h]

theorem findBest_correct {cs : String} {N : Nat} {ft : Bool} {b : Board}
    (hb : InvB cs N ft b) :
    ∀ (l : List Board) (c : Cache), (∀ ch ∈ l, InvB cs N ft ch) → CacheOK cs N ft c →
      (findBest b l c).1 = l.find? (fun ch => score ch == score b) := by
  intro l
  induction l with
  | nil => intro c _ _; rfl
  | cons ch rest ihl =>
    intro c hl hOK
    obtain ⟨hval, hOK', -, -⟩ := getScoreC_correct (hl ch (List.mem_cons_self _ _)) hOK
    obtain ⟨hval', hOK'', -, -⟩ := getScoreC_correct hb hOK'
    have hstep : findBest b (ch :: rest) c =
        (if (ch.getScoreC c).1 = (b.getScoreC (ch.getScoreC c).2.1).1
          then (some ch, (b.getScoreC (ch.getScoreC c).2.1).2.1)
          else findBest b rest (b.getScoreC (ch.getScoreC c).2.1).2.1) := rfl
    rw [hstep]
    by_cases heq : score ch = score b
    · rw [if_pos (by rw [hval, hval', heq])]
      rw [List.find?_cons_of_pos _ (by simp [heq])]
    · rw [if_neg (by rw [hval, hval']; exact heq)]
      rw [List.find?_cons_of_neg _ (by simp [heq])]
      exact ihl _ (fun x hx => hl x (List.mem_cons_of_mem _ hx)) hOK''

theorem find?_score_isSome {b : Board} (hb : WFB b) (hcomp : b.isCompTurn = true)
    (hw : b.getWinner = "L") :
    ∃ ch, (b.getChildBoards.find? (fun ch => score ch == score b)) = some ch := by
  obtain ⟨hsq, hok, hcs⟩ := hb
  have hne : b.getChildBoards ≠ [] := getChildBoards_ne_nil hsq hok hw
  have hscore : score b = maxList (b.getChildBoards.map score) := by
    rw [score_ongoing hcs hw, hcomp]
    simp
  have hmem : maxList (b.getChildBoards.map score) ∈ b.getChildBoards.map score :=
    maxList_mem (by simpa using hne)
  rcases List.mem_map.mp hmem with ⟨ch, hch, hcheq⟩
  have : (b.getChildBoards.find? (fun ch => score ch == score b)).isSome :=
    List.find?_isSome.mpr ⟨ch, hch, by rw [hcheq, ← hscore]; simp⟩
  exact Option.isSome_iff_exists.mp this

/-! Enumeration of empty cells in row-major order (claim C6). -/

/-- Stated from the spec (claim C6): the empty cells in row-major order —
row 0 to N-1, within each row column 0 to N-1. -/
def emptyCellsRM (b : Board) : List (Nat × Nat) :=
  (List.range b.boardSize).flatMap (fun y =>
    (List.range b.boardSize).filterMap (fun x =>
      if (b.state.getD y []).getD x "undefined" = "E" then some (y, x) else none))

theorem getChildBoards_eq_map (b : Board) :
    b.getChildBoards = (emptyCellsRM b).map (fun p => b.placeAt p.1 p.2) := by
  unfold Board.getChildBoards emptyCellsRM
  rw [List.map_flatMap]
  have hinner : ∀ y : Nat,
      ((List.range b.boardSize).filterMap (fun x =>
        if (b.state.getD y []).getD x "undefined" = "E" then some (y, x) else none)).map
        (fun p => b.placeAt p.1 p.2) =
      (List.range b.boardSize).filterMap (fun x =>
        if (b.state.getD y []).getD x "undefined" = "E" then some (b.placeAt y x) else none) := by
    intro y
    rw [List.map_filterMap]
    congr 1
    funext x
    by_cases hE : (b.state.getD y []).getD x "undefined" = "E" <;> simp [hE]
  simp only [hinner]

theorem length_filterMap_range_E {α : Type _} (row : List String) (p : Nat → α) :
    ((List.range row.length).filterMap (fun x =>
      if row.getD x "undefined" = "E" then some (p x) else none)).length = eCount row := by
  induction row generalizing p with
  | nil => rfl
  | cons a t ih =>
    rw [show (a :: t).length = t.length + 1 from rfl, List.range_succ_eq_map,
      List.filterMap_cons, List.filterMap_map]
    by_cases ha : a = "E"
    · rw [if_pos (by simpa using ha)]
      simp only [List.length_cons]
      have := ih (fun x => p (x + 1))
      rw [show ((fun x => if (a :: t).getD x "undefined" = "E" then some (p x) else none) ∘
        Nat.succ) = (fun x => if t.getD x "undefined" = "E" then some (p (x + 1)) else none)
        from rfl]
      rw [this]
      simp [eCount, List.filter_cons, ha]
    · rw [if_neg (by simpa using ha)]
      have := ih (fun x => p (x + 1))
      rw [show ((fun x => if (a :: t).getD x "undefined" = "E" then some (p x) else none) ∘
        Nat.succ) = (fun x => if t.getD x "undefined" = "E" then some (p (x + 1)) else none)
        from rfl]
      rw [this]
      simp [eCount, List.filter_cons, ha]

theorem map_range_getD {α β : Type _} (l : List α) (d : α) (f : α → β) :
    (List.range l.length).map (fun y => f (l.getD y d)) = l.map f := by
  induction l with
  | nil => rfl
  | cons a t ih =>
    rw [show (a :: t).length = t.length + 1 from rfl, List.range_succ_eq_map, List.map_cons,
      List.map_map]
    rw [show ((fun y => f ((a :: t).getD y d)) ∘ Nat.succ) = (fun y => f (t.getD y d))
      from rfl]
    rw [ih]
    rfl

theorem length_emptyCellsRM {b : Board} (hsq : SquareGrid b.state) :
    (emptyCellsRM b).length = countE b.state := by
  unfold emptyCellsRM
  rw [List.length_flatMap]
  simp only [Function.comp_def]
  have hinner : ∀ y, y < b.state.length →
      ((List.range b.boardSize).filterMap (fun x =>
        if (b.state.getD y []).getD x "undefined" = "E" then some (y, x) else none)).length =
      eCount (b.state.getD y []) := by
    intro y hy
    have hrow : (b.state.getD y []).length = b.boardSize := hsq _ (getD_mem hy)
    rw [← hrow]
    exact length_filterMap_range_E (b.state.getD y []) (fun x => (y, x))
  have hmap : (List.range b.boardSize).map (fun y =>
      ((List.range b.boardSize).filterMap (fun x =>
        if (b.state.getD y []).getD x "undefined" = "E" then some (y, x) else none)).length) =
      (List.range b.boardSize).map (fun y => eCount (b.state.getD y [])) := by
    apply List.map_congr_left
    intro y hy
    exact hinner y (List.mem_range.mp hy)
  rw [hmap]
  have := map_range_getD b.state [] eCount
  show ((List.range b.state.length).map (fun y => eCount (b.state.getD y []))).sum = _
  rw [this]
  rfl

/-! Relabelling the two marks (claim C8). -/

/-- Stated from the spec (claim C8): swap the marks X and O, leaving every
other value (including the empty mark) unchanged. -/
def swapSym (c : String) : String := if c = "X" then "O" else if c = "O" then "X" else c

/-- Stated from the spec (claim C8): relabel every cell of the grid and swap
the computer's symbol accordingly. -/
def swapBoard (b : Board) : Board :=
  ⟨b.state.map (fun row => row.map swapSym), swapSym b.compSymbol, b.isCompTurn⟩

theorem swapSym_E_iff {c : String} : swapSym c = "E" ↔ c = "E" := by
  by_cases h1 : c = "X"
  · subst h1; decide
  · by_cases h2 : c = "O"
    · subst h2; decide
    · simp [swapSym, h1, h2]

theorem swapSym_inj : Function.Injective swapSym := by
  have hinv : ∀ c, swapSym (swapSym c) = c := by
    intro c
    by_cases h1 : c = "X"
    · subst h1; decide
    · by_cases h2 : c = "O"
      · subst h2; decide
      · simp [swapSym, h1, h2]
  intro a b hab
  rw [← hinv a, hab, hinv b]

theorem getD_map_swap (l : List String) (i : Nat) :
    (l.map swapSym).getD i "undefined" = swapSym (l.getD i "undefined") := by
  have h : (l.map swapSym).getD i (swapSym "undefined") = swapSym (l.getD i "undefined") :=
    List.getD_map l "undefined" swapSym
  rw [show swapSym "undefined" = "undefined" from by decide] at h
  exact h

theorem getLineWinner_map_swap (line : List String) :
    getLineWinner (line.map swapSym) = swapSym (getLineWinner line) := by
  unfold getLineWinner
  have hcont : (line.map swapSym).contains "E" = line.contains "E" := by
    by_cases h : "E" ∈ line
    · rw [(contains_E_iff _).mpr h,
        (contains_E_iff _).mpr (List.mem_map.mpr ⟨"E", h, by decide⟩)]
    · have h1 : line.contains "E" = false :=
        Bool.eq_false_iff.mpr (fun hc => h ((contains_E_iff _).mp hc))
      have h2 : (line.map swapSym).contains "E" = false := by
        apply Bool.eq_false_iff.mpr
        intro hc
        rcases List.mem_map.mp ((contains_E_iff _).mp hc) with ⟨c, hcm, hcE⟩
        exact h (swapSym_E_iff.mp hcE ▸ hcm)
      rw [h1, h2]
  rw [hcont]
  by_cases h : line.contains "E" = true
  · rw [if_pos h, if_pos h]
    decide
  · rw [if_neg h, if_neg h]
    have hhead : (line.map swapSym).getD 0 "undefined" = swapSym (line.getD 0 "undefined") :=
      getD_map_swap line 0
    have hall : (line.map swapSym).all (fun sq => sq == (line.map swapSym).getD 0 "undefined") =
        line.all (fun sq => sq == line.getD 0 "undefined") := by
      rw [hhead, List.all_map]
      have hfun : ∀ sq : String,
          (swapSym sq == swapSym (line.getD 0 "undefined")) = (sq == line.getD 0 "undefined") := by
        intro sq
        by_cases hsq : sq = line.getD 0 "undefined"
        · rw [hsq]
          simp
        · have hne : swapSym sq ≠ swapSym (line.getD 0 "undefined") :=
            fun hh => hsq (swapSym_inj hh)
          rw [beq_eq_false_iff_ne.mpr hne, beq_eq_false_iff_ne.mpr hsq]
      congr 1
      funext sq
      exact hfun sq
    rw [hall]
    by_cases hq : line.all (fun sq => sq == line.getD 0 "undefined") = true
    · rw [if_pos hq, if_pos hq]
      exact hhead
    · rw [if_neg hq, if_neg hq]
      decide

theorem swapSym_XO_iff {w : String} :
    (swapSym w = "X" ∨ swapSym w = "O") ↔ (w = "X" ∨ w = "O") := by
  by_cases h1 : w = "X"
  · subst h1; decide
  · by_cases h2 : w = "O"
    · subst h2; decide
    · simp [swapSym, h1, h2]

theorem winnerLoop_map_swap : ∀ (lines : List (List String)) (d : Bool),
    winnerLoop (lines.map (List.map swapSym)) d = swapSym (winnerLoop lines d) := by
  intro lines
  induction lines with
  | nil => intro d; cases d <;> decide
  | cons line rest ih =>
    intro d
    rw [List.map_cons]
    show (if getLineWinner (line.map swapSym) = "X" ∨ getLineWinner (line.map swapSym) = "O"
        then getLineWinner (line.map swapSym)
        else winnerLoop (rest.map (List.map swapSym))
          (if getLineWinner (line.map swapSym) = "E" then false else d)) =
      swapSym (if getLineWinner line = "X" ∨ getLineWinner line = "O" then getLineWinner line
        else winnerLoop rest (if getLineWinner line = "E" then false else d))
    rw [getLineWinner_map_swap]
    by_cases hxo : getLineWinner line = "X" ∨ getLineWinner line = "O"
    · rw [if_pos (swapSym_XO_iff.mpr hxo), if_pos hxo]
    · rw [if_neg (fun h => hxo (swapSym_XO_iff.mp h)), if_neg hxo]
      by_cases hEE : getLineWinner line = "E"
      · rw [if_pos (swapSym_E_iff.mpr hEE), if_pos hEE]
        exact ih false
      · rw [if_neg (fun h => hEE (swapSym_E_iff.mp h)), if_neg hEE]
        exact ih d

theorem mapIdx_map {α β γ : Type _} (g : α → β) :
    ∀ (l : List α) (h : Nat → β → γ), (l.map g).mapIdx h = l.mapIdx (fun i a => h i (g a)) := by
  intro l
  induction l with
  | nil => intro h; rfl
  | cons a t ih =>
    intro h
    rw [List.map_cons, List.mapIdx_cons, List.mapIdx_cons, ih]

theorem map_mapIdx {α β γ : Type _} (g : β → γ) :
    ∀ (l : List α) (f : Nat → α → β), (l.mapIdx f).map g = l.mapIdx (fun i a => g (f i a)) := by
  intro l
  induction l with
  | nil => intro f; rfl
  | cons a t ih =>
    intro f
    rw [List.mapIdx_cons, List.map_cons, List.mapIdx_cons, ih]

theorem lines_swapBoard (b : Board) :
    (swapBoard b).lines = b.lines.map (List.map swapSym) := by
  have hsize : (swapBoard b).boardSize = b.boardSize := by
    simp [Board.boardSize, swapBoard]
  have hrows : (swapBoard b).getRows = b.getRows.map (List.map swapSym) := rfl
  have hcols : (swapBoard b).getCols = b.getCols.map (List.map swapSym) := by
    unfold Board.getCols
    rw [hsize, List.map_map]
    apply List.map_congr_left
    intro x hx
    show (swapBoard b).state.map (fun row => row.getD x "undefined") =
      (List.map swapSym ∘ fun x' => b.state.map (fun row => row.getD x' "undefined")) x
    show (b.state.map (fun row => row.map swapSym)).map (fun row => row.getD x "undefined") =
      (b.state.map (fun row => row.getD x "undefined")).map swapSym
    rw [List.map_map, List.map_map]
    apply List.map_congr_left
    intro row hrow
    exact getD_map_swap row x
  have hdiags : (swapBoard b).getDiags = b.getDiags.map (List.map swapSym) := by
    unfold Board.getDiags
    rw [hsize]
    show [((b.state.map (fun row => row.map swapSym)).mapIdx (fun i row => row.getD i "undefined")),
      ((b.state.map (fun row => row.map swapSym)).mapIdx
        (fun i row => row.getD (b.boardSize - i - 1) "undefined"))] = _
    rw [mapIdx_map, mapIdx_map]
    simp only [List.map_cons, List.map_nil]
    rw [map_mapIdx, map_mapIdx]
    have hfun1 : (fun (i : Nat) (row : List String) => (row.map swapSym).getD i "undefined") =
        (fun (i : Nat) (row : List String) => swapSym (row.getD i "undefined")) := by
      funext i row
      exact getD_map_swap row i
    have hfun2 : (fun (i : Nat) (row : List String) =>
          (row.map swapSym).getD (b.boardSize - i - 1) "undefined") =
        (fun (i : Nat) (row : List String) =>
          swapSym (row.getD (b.boardSize - i - 1) "undefined")) := by
      funext i row
      exact getD_map_swap row (b.boardSize - i - 1)
    rw [hfun1, hfun2]
  unfold Board.lines
  rw [List.map_append, List.map_append, hrows, hcols, hdiags]

theorem getWinner_swapBoard (b : Board) :
    (swapBoard b).getWinner = swapSym b.getWinner := by
  unfold Board.getWinner
  rw [lines_swapBoard, winnerLoop_map_swap]

/-! Heap model of array aliasing for `clone` and `getChildBoards` (claim
C9): a grid is an array of row references into a store, and the cache is a
reference, as in the JS object graph.  `clone` deep-copies the rows into
freshly allocated cells and passes the cache reference through unchanged. -/

/-- A store of row arrays; an address is an index into the store. -/
structure Heap where
  rows : List (List String)

/-- Dereference a row address. -/
def Heap.read (h : Heap) (a : Nat) : List String := h.rows.getD a []

/-- Overwrite the row at an address. -/
def Heap.write (h : Heap) (a : Nat) (r : List String) : Heap := ⟨h.rows.set a r⟩

/-- Allocate a fresh row array holding `r`; its address is the old size. -/
def Heap.alloc (h : Heap) (r : List String) : Heap × Nat :=
  (⟨h.rows ++ [r]⟩, h.rows.length)

/-- A `Board` whose grid is an array of row references and whose cache is a
reference. -/
structure BoardR where
  stateRefs : List Nat
  compSymbol : String
  isCompTurn : Bool
  cacheRef : Nat

/-- The grid a referenced board denotes in a heap. -/
def BoardR.grid (h : Heap) (b : BoardR) : List (List String) :=
  b.stateRefs.map h.read

/-- All row references point into the heap. -/
def ValidR (h : Heap) (b : BoardR) : Prop := ∀ a ∈ b.stateRefs, a < h.rows.length

/-- Models `this.state.map(row => [...row])`: allocate a fresh copy of each
row, left to right. -/
def allocRows (h : Heap) : List (List String) → Heap × List Nat
  | [] => (h, [])
  | r :: rs =>
    let p := h.alloc r
    let q := allocRows p.1 rs
    (q.1, p.2 :: q.2)

/-- Models `clone()`: deep-copy the rows; `compSymbol`, `isCompTurn` and the
cache reference are passed through unchanged. -/
def BoardR.clone (h : Heap) (b : BoardR) : Heap × BoardR :=
  let p := allocRows h (b.grid h)
  (p.1, ⟨p.2, b.compSymbol, b.isCompTurn, b.cacheRef⟩)

/-- Models `newBoard.state[y][x] = symbol`: write through the row
reference. -/
def writeCellR (h : Heap) (b : BoardR) (y x : Nat) (v : String) : Heap :=
  h.write (b.stateRefs.getD y 0) ((h.read (b.stateRefs.getD y 0)).set x v)

/-- Models `this.humanSymbol` for the referenced board. -/
def BoardR.humanSymbol (b : BoardR) : String := if b.compSymbol = "X" then "O" else "X"

/-- Models `playerSymbol` for the referenced board. -/
def BoardR.playerSymbol (b : BoardR) : String :=
  if b.isCompTurn then b.compSymbol else b.humanSymbol

/-- Models the `getChildBoards()` loop body over a row-major cell list: on
an `"E"` cell, clone, flip the turn, write the mark through the clone's row
reference. -/
def childLoop (b : BoardR) : List (Nat × Nat) → Heap → Heap × List BoardR
  | [], h => (h, [])
  | (y, x) :: rest, h =>
    if ((b.grid h).getD y []).getD x "undefined" = "E" then
      let p := BoardR.clone h b
      let nb : BoardR := ⟨p.2.stateRefs, p.2.compSymbol, !b.isCompTurn, p.2.cacheRef⟩
      let h₂ := writeCellR p.1 nb y x b.playerSymbol
      let q := childLoop b rest h₂
      (q.1, nb :: q.2)
    else childLoop b rest h

/-- Row-major list of the cell coordinates scanned by the loops. -/
def allCells (n : Nat) : List (Nat × Nat) :=
  (List.range n).flatMap (fun y => (List.range n).map (fun x => (y, x)))

/-- Models `getChildBoards()` in the heap model. -/
def BoardR.getChildBoards (h : Heap) (b : BoardR) : Heap × List BoardR :=
  childLoop b (allCells b.stateRefs.length) h

theorem Heap.read_write_ne {h : Heap} {a a' : Nat} {r : List String} (hne : a ≠ a') :
    (h.write a' r).read a = h.read a := by
  unfold Heap.read Heap.write
  rw [List.getD_eq_getElem?_getD, List.getD_eq_getElem?_getD,
    List.getElem?_set_ne (fun hh => hne hh.symm)]

theorem allocRows_eq (rs : List (List String)) : ∀ h : Heap,
    allocRows h rs = (⟨h.rows ++ rs⟩, (List.range rs.length).map (fun i => h.rows.length + i)) := by
  induction rs with
  | nil =>
    intro h
    cases h with
    | mk rows => simp [allocRows]
  | cons r rest ih =>
    intro h
    show (let p := h.alloc r
          let q := allocRows p.1 rest
          (q.1, p.2 :: q.2)) = _
    rw [show h.alloc r = (⟨h.rows ++ [r]⟩, h.rows.length) from rfl]
    simp only
    rw [ih ⟨h.rows ++ [r]⟩]
    simp only [List.append_assoc, List.singleton_append]
    congr 1
    rw [show (r :: rest).length = rest.length + 1 from rfl, List.range_succ_eq_map,
      List.map_cons, List.map_map]
    congr 1
    apply List.map_congr_left
    intro i hi
    show (h.rows ++ [r]).length + i = h.rows.length + (i + 1)
    rw [List.length_append]
    simp
    omega

theorem grid_write_high {h : Heap} {b ch : BoardR} {n₀ : Nat}
    (hb : ∀ a ∈ b.stateRefs, a < n₀) (hch : ∀ a ∈ ch.stateRefs, n₀ ≤ a)
    {y x : Nat} {v : String} (hy : y < ch.stateRefs.length) :
    b.grid (writeCellR h ch y x v) = b.grid h := by
  have haddr : n₀ ≤ ch.stateRefs.getD y 0 := hch _ (getD_mem hy)
  unfold BoardR.grid writeCellR
  apply List.map_congr_left
  intro a ha
  exact Heap.read_write_ne (by have := hb a ha; omega)

theorem read_append_right (rows rs : List (List String)) (i : Nat) :
    Heap.read ⟨rows ++ rs⟩ (rows.length + i) = rs.getD i [] := by
  unfold Heap.read
  show (rows ++ rs).getD (rows.length + i) [] = rs.getD i []
  rw [List.getD_append_right rows rs [] (rows.length + i) (by omega)]
  congr 1
  omega

theorem read_append_left (h : Heap) (rs : List (List String)) {a : Nat}
    (ha : a < h.rows.length) : Heap.read ⟨h.rows ++ rs⟩ a = h.read a := by
  unfold Heap.read
  exact List.getD_append h.rows rs [] a ha

theorem map_range_getD_self (l : List (List String)) :
    (List.range l.length).map (fun y => l.getD y []) = l := by
  have h := map_range_getD l [] id
  rw [List.map_id] at h
  exact h

theorem clone_fst (h : Heap) (b : BoardR) :
    (BoardR.clone h b).1 = ⟨h.rows ++ b.grid h⟩ := by
  unfold BoardR.clone
  rw [allocRows_eq]

theorem clone_snd (h : Heap) (b : BoardR) :
    (BoardR.clone h b).2 = ⟨(List.range (b.grid h).length).map (fun i => h.rows.length + i),
      b.compSymbol, b.isCompTurn, b.cacheRef⟩ := by
  unfold BoardR.clone
  rw [allocRows_eq]

theorem clone_refs_ge (h : Heap) (b : BoardR) :
    ∀ a ∈ (BoardR.clone h b).2.stateRefs, h.rows.length ≤ a := by
  rw [clone_snd]
  intro a ha
  simp only [List.mem_map, List.mem_range] at ha
  obtain ⟨i, -, rfl⟩ := ha
  omega

theorem clone_refs_length (h : Heap) (b : BoardR) :
    (BoardR.clone h b).2.stateRefs.length = b.stateRefs.length := by
  rw [clone_snd]
  show ((List.range (b.grid h).length).map (fun i => h.rows.length + i)).length = _
  rw [List.length_map, List.length_range, BoardR.grid, List.length_map]

theorem clone_grid (h : Heap) (b : BoardR) :
    (BoardR.clone h b).2.grid (BoardR.clone h b).1 = b.grid h := by
  rw [BoardR.grid, clone_snd, clone_fst]
  show ((List.range (b.grid h).length).map (fun i => h.rows.length + i)).map
    (Heap.read ⟨h.rows ++ b.grid h⟩) = b.grid h
  rw [List.map_map]
  have hpt : ∀ i ∈ List.range (b.grid h).length,
      (Heap.read ⟨h.rows ++ b.grid h⟩ ∘ fun i => h.rows.length + i) i =
      (b.grid h).getD i [] := by
    intro i hi
    exact read_append_right h.rows (b.grid h) i
  rw [List.map_congr_left hpt, map_range_getD_self]

theorem clone_preserves_grid {h : Heap} {b : BoardR} (hv : ValidR h b) :
    b.grid (BoardR.clone h b).1 = b.grid h := by
  rw [clone_fst, BoardR.grid, BoardR.grid]
  apply List.map_congr_left
  intro a ha
  exact read_append_left h (b.grid h) (hv a ha)

theorem childLoop_spec (b : BoardR) (n₀ : Nat) :
    ∀ (cells : List (Nat × Nat)) (h : Heap), n₀ ≤ h.rows.length →
      n₀ ≤ (childLoop b cells h).1.rows.length ∧
      (∀ a, a < n₀ → (childLoop b cells h).1.read a = h.read a) ∧
      (∀ ch ∈ (childLoop b cells h).2, ch.cacheRef = b.cacheRef ∧
        ch.compSymbol = b.compSymbol ∧ ch.stateRefs.length = b.stateRefs.length ∧
        ∀ a ∈ ch.stateRefs, n₀ ≤ a) := by
  intro cells
  induction cells with
  | nil =>
    intro h hn
    exact ⟨hn, fun a _ => rfl, fun ch hch => absurd hch (List.not_mem_nil ch)⟩
  | cons yx rest ih =>
    obtain ⟨y, x⟩ := yx
    intro h hn
    by_cases hg : ((b.grid h).getD y []).getD x "undefined" = "E"
    · have hylen : y < b.stateRefs.length := by
        have hrow : (b.grid h).getD y [] ≠ [] := by
          intro hnil
          rw [hnil, List.getD_nil] at hg
          exact absurd hg (by decide)
        have hylt : y < (b.grid h).length := by
          by_contra hge
          exact hrow (List.getD_eq_default _ _ (by omega))
        rw [BoardR.grid, List.length_map] at hylt
        exact hylt
      have hstep : childLoop b ((y, x) :: rest) h =
          ((childLoop b rest (writeCellR (BoardR.clone h b).1
              ⟨(BoardR.clone h b).2.stateRefs, (BoardR.clone h b).2.compSymbol, !b.isCompTurn,
                (BoardR.clone h b).2.cacheRef⟩ y x b.playerSymbol)).1,
            (⟨(BoardR.clone h b).2.stateRefs, (BoardR.clone h b).2.compSymbol, !b.isCompTurn,
                (BoardR.clone h b).2.cacheRef⟩ : BoardR) ::
            (childLoop b rest (writeCellR (BoardR.clone h b).1
              ⟨(BoardR.clone h b).2.stateRefs, (BoardR.clone h b).2.compSymbol, !b.isCompTurn,
                (BoardR.clone h b).2.cacheRef⟩ y x b.playerSymbol)).2) := by
        show (if ((b.grid h).getD y []).getD x "undefined" = "E" then _ else _) = _
        rw [if_pos hg]
      set nb : BoardR := ⟨(BoardR.clone h b).2.stateRefs, (BoardR.clone h b).2.compSymbol,
        !b.isCompTurn, (BoardR.clone h b).2.cacheRef⟩ with hnb
      set h₂ : Heap := writeCellR (BoardR.clone h b).1 nb y x b.playerSymbol with hh₂
      have hnblen : nb.stateRefs.length = b.stateRefs.length := clone_refs_length h b
      have hnbge : ∀ a ∈ nb.stateRefs, h.rows.length ≤ a := clone_refs_ge h b
      have haddr : h.rows.length ≤ nb.stateRefs.getD y 0 :=
        hnbge _ (getD_mem (by omega))
      have hlen₂ : n₀ ≤ h₂.rows.length := by
        rw [hh₂]
        unfold writeCellR Heap.write
        show n₀ ≤ ((BoardR.clone h b).1.rows.set _ _).length
        rw [List.length_set, clone_fst]
        show n₀ ≤ (h.rows ++ b.grid h).length
        rw [List.length_append]
        omega
      have hreads₂ : ∀ a, a < n₀ → h₂.read a = h.read a := by
        intro a ha
        rw [hh₂]
        unfold writeCellR
        rw [Heap.read_write_ne (by omega)]
        rw [clone_fst]
        exact read_append_left h (b.grid h) (by omega)
      obtain ⟨ih1, ih2, ih3⟩ := ih h₂ hlen₂
      rw [hstep]
      refine ⟨ih1, ?_, ?_⟩
      · intro a ha
        rw [ih2 a ha]
        exact hreads₂ a ha
      · intro ch hch
        rcases List.mem_cons.mp hch with rfl | hch
        · refine ⟨?_, ?_, hnblen, fun a ha => by have := hnbge a ha; omega⟩
          · show (BoardR.clone h b).2.cacheRef = b.cacheRef
            rw [clone_snd]
          · show (BoardR.clone h b).2.compSymbol = b.compSymbol
            rw [clone_snd]
        · exact ih3 ch hch
    · have hstep : childLoop b ((y, x) :: rest) h = childLoop b rest h := by
        show (if ((b.grid h).getD y []).getD x "undefined" = "E" then _ else _) = _
        rw [if_neg hg]
      rw [hstep]
      exact ih h hn

theorem cloneR_spec {h : Heap} {b : BoardR} (hv : ValidR h b) :
    (BoardR.clone h b).2.grid (BoardR.clone h b).1 = b.grid h ∧
    b.grid (BoardR.clone h b).1 = b.grid h ∧
    (BoardR.clone h b).2.cacheRef = b.cacheRef ∧
    (BoardR.clone h b).2.compSymbol = b.compSymbol ∧
    (BoardR.clone h b).2.isCompTurn = b.isCompTurn ∧
    ∀ y x : Nat, ∀ v : String, y < (BoardR.clone h b).2.stateRefs.length →
      b.grid (writeCellR (BoardR.clone h b).1 (BoardR.clone h b).2 y x v) =
      b.grid (BoardR.clone h b).1 := by
  refine ⟨clone_grid h b, clone_preserves_grid hv, by rw [clone_snd], by rw [clone_snd],
    by rw [clone_snd], ?_⟩
  intro y x v hy
  exact grid_write_high hv (clone_refs_ge h b) hy

theorem getChildBoardsR_spec {h : Heap} {b : BoardR} (hv : ValidR h b) :
    b.grid (BoardR.getChildBoards h b).1 = b.grid h ∧
    ∀ ch ∈ (BoardR.getChildBoards h b).2, ch.cacheRef = b.cacheRef ∧
      ∀ y x : Nat, ∀ v : String, y < ch.stateRefs.length →
        b.grid (writeCellR (BoardR.getChildBoards h b).1 ch y x v) =
        b.grid (BoardR.getChildBoards h b).1 := by
  obtain ⟨-, hreads, hch⟩ :=
    childLoop_spec b h.rows.length (allCells b.stateRefs.length) h (le_refl _)
  constructor
  · unfold BoardR.getChildBoards
    apply List.map_congr_left
    intro a ha
    exact hreads a (hv a ha)
  · intro ch hmem
    obtain ⟨hcache, -, -, hge⟩ := hch ch hmem
    exact ⟨hcache, fun y x v hy => grid_write_high hv hge hy⟩

/-! Decidability of the well-formedness predicates, for concrete witnesses. -/

instance (g : List (List String)) : Decidable (SquareGrid g) := by
  unfold SquareGrid; infer_instance

instance (g : List (List String)) : Decidable (OkCells g) := by
  unfold OkCells; infer_instance

instance (s : String) : Decidable (OkSym s) := by
  unfold OkSym; infer_instance

instance (b : Board) : Decidable (WFB b) := by
  unfold WFB; infer_instance

instance (cs : String) (N : Nat) (ft : Bool) (b : Board) : Decidable (InvB cs N ft b) := by
  unfold InvB; infer_instance

instance (h : Heap) (b : BoardR) : Decidable (ValidR h b) := by
  unfold ValidR; infer_instance

/-! Cell-level description of `placeAt` (claim C6). -/

theorem mem_emptyCellsRM {b : Board} {p : Nat × Nat} :
    p ∈ emptyCellsRM b ↔ p.1 < b.boardSize ∧ p.2 < b.boardSize ∧
      (b.state.getD p.1 []).getD p.2 "undefined" = "E" := by
  obtain ⟨y, x⟩ := p
  simp only [emptyCellsRM, List.mem_flatMap, List.mem_filterMap, List.mem_range]
  constructor
  · rintro ⟨y', hy', x', hx', hif⟩
    split at hif
    · have heq := Option.some.inj hif
      injection heq with h1 h2
      subst h1
      subst h2
      exact ⟨hy', hx', by assumption⟩
    · cases hif
  · rintro ⟨hy, hx, hE⟩
    exact ⟨y, hy, x, hx, by rw [if_pos hE]⟩

theorem placeAt_cell_self {b : Board} {y x : Nat} (hy : y < b.state.length)
    (hx : x < (b.state.getD y []).length) :
    ((b.placeAt y x).state.getD y []).getD x "undefined" = b.playerSymbol := by
  unfold Board.placeAt
  simp only
  have h1 : (b.state.set y ((b.state.getD y []).set x b.playerSymbol)).getD y [] =
      (b.state.getD y []).set x b.playerSymbol := by
    rw [List.getD_eq_getElem?_getD, List.getElem?_set_self (by simpa using hy)]
    rfl
  rw [h1, List.getD_eq_getElem?_getD, List.getElem?_set_self (by simpa using hx)]
  rfl

theorem placeAt_cell_other {b : Board} {y x y' x' : Nat} (hne : (y', x') ≠ (y, x)) :
    ((b.placeAt y x).state.getD y' []).getD x' "undefined" =
      (b.state.getD y' []).getD x' "undefined" := by
  unfold Board.placeAt
  simp only
  by_cases hyy : y' = y
  · subst hyy
    have hxx : x' ≠ x := fun h => hne (by rw [h])
    by_cases hylt : y' < b.state.length
    · have h1 : (b.state.set y' ((b.state.getD y' []).set x b.playerSymbol)).getD y' [] =
          (b.state.getD y' []).set x b.playerSymbol := by
        rw [List.getD_eq_getElem?_getD, List.getElem?_set_self (by simpa using hylt)]
        rfl
      rw [h1, List.getD_eq_getElem?_getD, List.getElem?_set_ne (fun h => hxx h.symm),
        ← List.getD_eq_getElem?_getD]
    · have h1 : (b.state.set y' ((b.state.getD y' []).set x b.playerSymbol)).getD y' [] =
          ([] : List String) := by
        rw [List.getD_eq_getElem?_getD, List.getElem?_eq_none (by simp; omega)]
        rfl
      have h2 : b.state.getD y' [] = ([] : List String) := by
        rw [List.getD_eq_getElem?_getD, List.getElem?_eq_none (by omega)]
        rfl
      rw [h1, h2]
  · generalize (b.state.getD y []).set x b.playerSymbol = row'
    have h1 : (b.state.set y row').getD y' [] = b.state.getD y' [] := by
      rw [List.getD_eq_getElem?_getD (b.state.set y row') y',
        List.getD_eq_getElem?_getD b.state y',
        List.getElem?_set_ne (fun h => hyy h.symm)]
    rw [h1]

/-! Claim theorems. -/

/-- C1 counterexample: the claim says a human-win position scores exactly
−100 with 0 enumerable children, but on this human-win board (a row of
`"O"`, the human's mark) four cells are still empty, `getChildBoards` is
4 long, and `forceGetScore` returns −100 + 4 = −96. -/
theorem C1_counterexample :
    (Board.mk [["O","O","O"],["X","X","E"],["E","E","E"]] "X" true).getWinner =
      (Board.mk [["O","O","O"],["X","X","E"],["E","E","E"]] "X" true).humanSymbol ∧
    (Board.mk [["O","O","O"],["X","X","E"],["E","E","E"]] "X" true).forceGetScore = -96 ∧
    (Board.mk [["O","O","O"],["X","X","E"],["E","E","E"]] "X" true).forceGetScore ≠ -100 ∧
    (Board.mk [["O","O","O"],["X","X","E"],["E","E","E"]] "X" true).getChildBoards.length = 4 := by
  decide

/-- C1 (amended): on a human-win position `forceGetScore` returns −100 plus
the number of enumerable children (which need not be 0); on a draw the board
is necessarily full, so the child count is 0 and the score is exactly 0. -/
theorem C1_amended (b : Board) (hcs : OkSym b.compSymbol) :
    (b.getWinner = b.humanSymbol →
      b.forceGetScore = -100 + (b.getChildBoards.length : Int)) ∧
    (b.getWinner = "D" → b.forceGetScore = 0 ∧ b.getChildBoards.length = 0) := by
  refine ⟨fun h => forceGetScore_humanWin h, fun h => ?_⟩
  obtain ⟨hnil, hscore⟩ := forceGetScore_draw hcs h
  exact ⟨hscore, by rw [hnil]; rfl⟩

/-- C1 witness: the amended claim instantiated at the human-win board of the
counterexample. -/
theorem C1_witness :
    OkSym (Board.mk [["O","O","O"],["X","X","E"],["E","E","E"]] "X" true).compSymbol ∧
    (((Board.mk [["O","O","O"],["X","X","E"],["E","E","E"]] "X" true).getWinner =
        (Board.mk [["O","O","O"],["X","X","E"],["E","E","E"]] "X" true).humanSymbol →
      (Board.mk [["O","O","O"],["X","X","E"],["E","E","E"]] "X" true).forceGetScore =
        -100 + ((Board.mk [["O","O","O"],["X","X","E"],["E","E","E"]] "X"
          true).getChildBoards.length : Int)) ∧
    ((Board.mk [["O","O","O"],["X","X","E"],["E","E","E"]] "X" true).getWinner = "D" →
      (Board.mk [["O","O","O"],["X","X","E"],["E","E","E"]] "X" true).forceGetScore = 0 ∧
      (Board.mk [["O","O","O"],["X","X","E"],["E","E","E"]] "X"
        true).getChildBoards.length = 0)) :=
  ⟨by decide, C1_amended (Board.mk [["O","O","O"],["X","X","E"],["E","E","E"]] "X" true)
    (by decide)⟩

/-- C2: on a session cache each stored encoding of which holds the true
minimax score, `getScore` of an ongoing position equals the maximum of the
children's `getScore` when the computer is to move, and the minimum when the
human is to move. -/
theorem C2 (cs : String) (N : Nat) (ft : Bool) (b : Board) (c : Cache)
    (hb : InvB cs N ft b) (hOK : CacheOK cs N ft c) (hw : b.getWinner = "L") :
    (b.isCompTurn = true →
      (b.getScoreC c).1 = maxList (b.getChildBoards.map (fun ch => (ch.getScoreC c).1))) ∧
    (b.isCompTurn = false →
      (b.getScoreC c).1 = minList (b.getChildBoards.map (fun ch => (ch.getScoreC c).1))) := by
  have hcs : OkSym b.compSymbol := hb.1.2.2
  have hval : (b.getScoreC c).1 = score b := (getScoreC_correct hb hOK).1
  have hmap : b.getChildBoards.map (fun ch => (ch.getScoreC c).1) =
      b.getChildBoards.map score := by
    apply List.map_congr_left
    intro ch hch
    exact (getScoreC_correct (InvB_child hb hch).1 hOK).1
  have hsc := score_ongoing hcs hw
  constructor
  · intro hcomp
    rw [hval, hmap, hsc, if_pos hcomp]
  · intro hcomp
    rw [hval, hmap, hsc, if_neg (by simp [hcomp])]

/-- C2 witness: the one-cell live board with the computer to move on the
fresh cache. -/
theorem C2_witness :
    InvB "X" 1 true (Board.mk [["E"]] "X" true) ∧
    (Board.mk [["E"]] "X" true).getWinner = "L" ∧
    ((Board.mk [["E"]] "X" true).getScoreC emptyCache).1 =
      maxList ((Board.mk [["E"]] "X" true).getChildBoards.map
        (fun ch => (ch.getScoreC emptyCache).1)) :=
  ⟨by decide, by decide,
    (C2 "X" 1 true (Board.mk [["E"]] "X" true) emptyCache (by decide)
      (emptyCache_ok "X" 1 true) (by decide)).1 rfl⟩

/-- C3: `getNextBestBoardState` yields no move exactly when it is not the
computer's turn or the position is terminal; on an ongoing position with the
computer to move it returns the first child, in the enumeration order of
`getChildBoards`, whose score equals the parent's, and such a child exists. -/
theorem C3 (cs : String) (N : Nat) (ft : Bool) (b : Board) (c : Cache)
    (hb : InvB cs N ft b) (hOK : CacheOK cs N ft c) :
    ((b.getNextBestBoardState c).1 = none ↔
      (b.isCompTurn = false ∨ b.getWinner ≠ "L")) ∧
    (b.isCompTurn = true → b.getWinner = "L" →
      ∃ ch, (b.getNextBestBoardState c).1 = some ch ∧
        b.getChildBoards.find? (fun x => score x == score b) = some ch) := by
  by_cases hcomp : b.isCompTurn = true
  · by_cases hw : b.getWinner = "L"
    · have hres : (b.getNextBestBoardState c).1 = (findBest b b.getChildBoards c).1 := by
        unfold Board.getNextBestBoardState
        rw [if_neg (by simp [hcomp]), if_pos hw]
      have hfind := findBest_correct hb b.getChildBoards c
        (fun ch hch => (InvB_child hb hch).1) hOK
      obtain ⟨ch, hch⟩ := find?_score_isSome hb.1 hcomp hw
      constructor
      · rw [hres, hfind, hch]
        simp [hcomp, hw]
      · exact fun _ _ => ⟨ch, by rw [hres, hfind]; exact hch, hch⟩
    · have hres : (b.getNextBestBoardState c).1 = none := by
        unfold Board.getNextBestBoardState
        rw [if_neg (by simp [hcomp]), if_neg hw]
      constructor
      · simp [hres, hw]
      · exact fun _ hw' => absurd hw' hw
  · have hcomp' : b.isCompTurn = false := Bool.not_eq_true _ ▸ (by simpa using hcomp)
    have hres : (b.getNextBestBoardState c).1 = none := by
      unfold Board.getNextBestBoardState
      rw [if_pos (by simp [hcomp'])]
    constructor
    · simp [hres, hcomp']
    · exact fun hc _ => absurd hc hcomp

/-- C3 witness: on the one-cell live board with the computer to move the
selected move is the first (only) child, whose score matches the parent's. -/
theorem C3_witness :
    ∃ ch, ((Board.mk [["E"]] "X" true).getNextBestBoardState emptyCache).1 = some ch ∧
      (Board.mk [["E"]] "X" true).getChildBoards.find?
        (fun x => score x == score (Board.mk [["E"]] "X" true)) = some ch :=
  (C3 "X" 1 true (Board.mk [["E"]] "X" true) emptyCache (by decide)
    (emptyCache_ok "X" 1 true)).2 rfl (by decide)

/-- C5: on a well-formed square grid `getWinner` agrees with the stated
scan: the first uniform non-empty line in the order rows, columns, diagonals
gives the winner; otherwise the game is drawn exactly when no line has an
empty cell, and ongoing otherwise (`winnerSpec` renders that sentence). -/
theorem C5 (b : Board) (hsq : SquareGrid b.state) (hok : OkCells b.state) :
    b.getWinner = winnerSpec b :=
  getWinner_eq_winnerSpec hsq hok

/-- C5 witness: the scan characterization instantiated at a concrete live
3×3 board. -/
theorem C5_witness :
    SquareGrid (Board.mk [["X","E","E"],["E","X","E"],["O","O","E"]] "X" true).state ∧
    OkCells (Board.mk [["X","E","E"],["E","X","E"],["O","O","E"]] "X" true).state ∧
    (Board.mk [["X","E","E"],["E","X","E"],["O","O","E"]] "X" true).getWinner =
      winnerSpec (Board.mk [["X","E","E"],["E","X","E"],["O","O","E"]] "X" true) :=
  ⟨by decide, by decide,
    C5 (Board.mk [["X","E","E"],["E","X","E"],["O","O","E"]] "X" true) (by decide) (by decide)⟩

/-- C7 counterexample: on a drawn board the score is 0; the JS truthiness
test `if (this.cache[key])` treats the cached 0 as a miss, so the second
identical `getScore` call recomputes — its `forceGetScore` invocation count
is nonzero (both calls still return the same 0). -/
theorem C7_counterexample :
    ((Board.mk [["X","O","X"],["O","X","O"],["O","X","O"]] "X" false).getScoreC emptyCache).1 = 0 ∧
    ((Board.mk [["X","O","X"],["O","X","O"],["O","X","O"]] "X" false).getScoreC
      (((Board.mk [["X","O","X"],["O","X","O"],["O","X","O"]] "X" false).getScoreC
        emptyCache).2.1)).1 = 0 ∧
    ((Board.mk [["X","O","X"],["O","X","O"],["O","X","O"]] "X" false).getScoreC
      (((Board.mk [["X","O","X"],["O","X","O"],["O","X","O"]] "X" false).getScoreC
        emptyCache).2.1)).2.2 ≠ 0 := by
  decide

/-- C7 (amended): on a valid session cache, both calls return the identical
true minimax score; the second call performs no recomputation provided that
score is nonzero (a cached 0 fails the JS truthiness test and is
recomputed). -/
theorem C7_amended (cs : String) (N : Nat) (ft : Bool) (b : Board) (c : Cache)
    (hb : InvB cs N ft b) (hOK : CacheOK cs N ft c) :
    (b.getScoreC c).1 = score b ∧
    (b.getScoreC ((b.getScoreC c).2.1)).1 = (b.getScoreC c).1 ∧
    (score b ≠ 0 → (b.getScoreC ((b.getScoreC c).2.1)).2.2 = 0) := by
  obtain ⟨hval, hOK', hlook, -⟩ := getScoreC_correct hb hOK
  have hval2 : (b.getScoreC ((b.getScoreC c).2.1)).1 = score b :=
    (getScoreC_correct hb hOK').1
  refine ⟨hval, by rw [hval2, hval], ?_⟩
  intro hnz
  have htr : truthy (((b.getScoreC c).2.1) (encode b.state)) = true := by
    rw [hlook]
    simpa [truthy] using hnz
  rw [getScoreC_hit htr]

/-- C7 witness: the one-cell live board, whose score 100 is nonzero, so the
second call is a pure cache hit. -/
theorem C7_witness :
    InvB "X" 1 true (Board.mk [["E"]] "X" true) ∧
    score (Board.mk [["E"]] "X" true) ≠ 0 ∧
    ((Board.mk [["E"]] "X" true).getScoreC
      (((Board.mk [["E"]] "X" true).getScoreC emptyCache).2.1)).2.2 = 0 :=
  ⟨by decide, by decide,
    (C7_amended "X" 1 true (Board.mk [["E"]] "X" true) emptyCache (by decide)
      (emptyCache_ok "X" 1 true)).2.2 (by decide)⟩

/-- C8: relabelling the two marks in every cell (and swapping the computer's
symbol accordingly) mirrors `getWinner`: an X-win becomes an O-win and vice
versa, while the draw and ongoing results are unchanged. -/
theorem C8 (b : Board) :
    (swapBoard b).getWinner = swapSym b.getWinner ∧
    swapSym "X" = "O" ∧ swapSym "O" = "X" ∧ swapSym "D" = "D" ∧ swapSym "L" = "L" :=
  ⟨getWinner_swapBoard b, by decide, by decide, by decide, by decide⟩

/-- C10: on a well-formed position whose winner scan says the game is live,
`getChildBoards` is nonempty, so the spread `Math.max`/`Math.min` in the
recursive branch of `forceGetScore` is never applied to an empty sequence. -/
theorem C10 (b : Board) (hsq : SquareGrid b.state) (hok : OkCells b.state)
    (hw : b.getWinner = "L") :
    b.getChildBoards ≠ [] ∧ b.getChildBoards.map score ≠ [] := by
  have h := getChildBoards_ne_nil hsq hok hw
  exact ⟨h, by simpa using h⟩

/-- C10 witness: the one-cell live board has a child. -/
theorem C10_witness :
    SquareGrid (Board.mk [["E"]] "X" true).state ∧
    OkCells (Board.mk [["E"]] "X" true).state ∧
    (Board.mk [["E"]] "X" true).getWinner = "L" ∧
    ((Board.mk [["E"]] "X" true).getChildBoards ≠ [] ∧
      (Board.mk [["E"]] "X" true).getChildBoards.map score ≠ []) :=
  ⟨by decide, by decide, by decide,
    C10 (Board.mk [["E"]] "X" true) (by decide) (by decide) (by decide)⟩

set_option maxRecDepth 1000000 in
/-- C4 counterexample: on the stated board the computer does pick (2,2) and
win, but the claim's score of 100 is wrong: the winning child still has four
empty cells, so its score is 100 − 4 = 96, not 100. -/
theorem C4_counterexample :
    ((Board.mk [["X","E","E"],["E","X","E"],["O","O","E"]] "X" true).getNextBestBoardState
      emptyCache).1 = some (Board.mk [["X","E","E"],["E","X","E"],["O","O","X"]] "X" false) ∧
    ((Board.mk [["X","E","E"],["E","X","E"],["O","O","X"]] "X" false).getScoreC
      emptyCache).1 ≠ 100 := by
  constructor
  · decide
  · decide

set_option maxRecDepth 1000000 in
/-- C4 (amended): on the board `[["X","E","E"],["E","X","E"],["O","O","E"]]`
with the computer playing "X" to move, `getNextBestBoardState` returns the
child with "X" placed at (2,2); that child's winner is the computer's
symbol and its `getScore` is 96. -/
theorem C4_amended :
    ((Board.mk [["X","E","E"],["E","X","E"],["O","O","E"]] "X" true).getNextBestBoardState
      emptyCache).1 = some (Board.mk [["X","E","E"],["E","X","E"],["O","O","X"]] "X" false) ∧
    (Board.mk [["X","E","E"],["E","X","E"],["O","O","X"]] "X" false).getWinner =
      (Board.mk [["X","E","E"],["E","X","E"],["O","O","X"]] "X" false).compSymbol ∧
    ((Board.mk [["X","E","E"],["E","X","E"],["O","O","X"]] "X" false).getScoreC
      emptyCache).1 = 96 := by
  refine ⟨by decide, by decide, by decide⟩

/-- C6: on a square grid, `getChildBoards` is exactly one child per empty
cell in row-major order: it is the row-major empty-cell list mapped through
`placeAt`; its length is the number of empty cells (so it is empty exactly
when no cell is empty); membership in the cell list is exactly "an in-range
empty cell"; and each child keeps the computer's symbol, flips the turn, and
agrees with the parent grid everywhere except the placed cell, which holds
the side-to-move's mark. -/
theorem C6 (b : Board) (hsq : SquareGrid b.state) :
    b.getChildBoards = (emptyCellsRM b).map (fun p => b.placeAt p.1 p.2) ∧
    b.getChildBoards.length = countE b.state ∧
    (countE b.state = 0 ↔ b.getChildBoards = []) ∧
    (∀ y x : Nat, (y, x) ∈ emptyCellsRM b ↔ y < b.boardSize ∧ x < b.boardSize ∧
      (b.state.getD y []).getD x "undefined" = "E") ∧
    ∀ p ∈ emptyCellsRM b,
      (b.placeAt p.1 p.2).compSymbol = b.compSymbol ∧
      (b.placeAt p.1 p.2).isCompTurn = !b.isCompTurn ∧
      ((b.placeAt p.1 p.2).state.getD p.1 []).getD p.2 "undefined" = b.playerSymbol ∧
      ∀ y x : Nat, (y, x) ≠ (p.1, p.2) →
        ((b.placeAt p.1 p.2).state.getD y []).getD x "undefined" =
          (b.state.getD y []).getD x "undefined" := by
  have hlen : b.getChildBoards.length = countE b.state := by
    rw [getChildBoards_eq_map b, List.length_map, length_emptyCellsRM hsq]
  refine ⟨getChildBoards_eq_map b, hlen, ?_, fun y x => mem_emptyCellsRM, ?_⟩
  · constructor
    · exact getChildBoards_eq_nil_of_countE
    · intro hnil
      rw [hnil] at hlen
      exact hlen.symm
  · intro p hp
    obtain ⟨hy, hx, hE⟩ := mem_emptyCellsRM.mp hp
    have hy' : p.1 < b.state.length := hy
    have hx' : p.2 < (b.state.getD p.1 []).length :=
      lt_length_of_getD_ne (by rw [hE]; decide)
    exact ⟨rfl, rfl, placeAt_cell_self hy' hx',
      fun y x hne => placeAt_cell_other hne⟩

/-- C6 witness: the child list of a concrete live 3×3 board has exactly one
entry per empty cell. -/
theorem C6_witness :
    SquareGrid (Board.mk [["X","E","E"],["E","X","E"],["O","O","E"]] "X" true).state ∧
    (Board.mk [["X","E","E"],["E","X","E"],["O","O","E"]] "X" true).getChildBoards.length =
      countE (Board.mk [["X","E","E"],["E","X","E"],["O","O","E"]] "X" true).state :=
  ⟨by decide,
    (C6 (Board.mk [["X","E","E"],["E","X","E"],["O","O","E"]] "X" true) (by decide)).2.1⟩

/-- C9: in the heap model, `clone` produces an identical grid through fresh
row references, leaves the original grid untouched, and passes the cache
reference through unchanged (never a per-clone copy); `getChildBoards`
leaves the parent's grid untouched and every child shares the parent's
cache reference while writing into a child's grid leaves the parent's grid
unchanged (deep copy); and `getScore` only adds cache entries, never losing
or changing one. -/
theorem C9 (h : Heap) (b : BoardR) (hv : ValidR h b) :
    ((BoardR.clone h b).2.grid (BoardR.clone h b).1 = b.grid h ∧
     b.grid (BoardR.clone h b).1 = b.grid h ∧
     (BoardR.clone h b).2.cacheRef = b.cacheRef ∧
     (BoardR.clone h b).2.compSymbol = b.compSymbol ∧
     (BoardR.clone h b).2.isCompTurn = b.isCompTurn ∧
     ∀ y x : Nat, ∀ v : String, y < (BoardR.clone h b).2.stateRefs.length →
       b.grid (writeCellR (BoardR.clone h b).1 (BoardR.clone h b).2 y x v) =
       b.grid (BoardR.clone h b).1) ∧
    (b.grid (BoardR.getChildBoards h b).1 = b.grid h ∧
     ∀ ch ∈ (BoardR.getChildBoards h b).2, ch.cacheRef = b.cacheRef ∧
       ∀ y x : Nat, ∀ v : String, y < ch.stateRefs.length →
         b.grid (writeCellR (BoardR.getChildBoards h b).1 ch y x v) =
         b.grid (BoardR.getChildBoards h b).1) ∧
    (∀ (cs : String) (N : Nat) (ft : Bool) (bb : Board) (c : Cache),
      InvB cs N ft bb → CacheOK cs N ft c →
      ∀ s : String, ∀ v : Int, c s = some v → (bb.getScoreC c).2.1 s = some v) :=
  ⟨cloneR_spec hv, getChildBoardsR_spec hv,
    fun _ _ _ _ _ hb hOK s v hv' => (getScoreC_correct hb hOK).2.2.2 s v hv'⟩

/-- C9 witness: a concrete two-row heap; enumerating children leaves the
parent's grid unchanged. -/
theorem C9_witness :
    ValidR (Heap.mk [["E","E"],["X","O"]]) (BoardR.mk [0, 1] "X" true 5) ∧
    (BoardR.mk [0, 1] "X" true 5).grid
      (BoardR.getChildBoards (Heap.mk [["E","E"],["X","O"]]) (BoardR.mk [0, 1] "X" true 5)).1 =
    (BoardR.mk [0, 1] "X" true 5).grid (Heap.mk [["E","E"],["X","O"]]) :=
  ⟨by decide,
    (C9 (Heap.mk [["E","E"],["X","O"]]) (BoardR.mk [0, 1] "X" true 5) (by decide)).2.1.1⟩

end MinimaxXO
